import Mathlib

/-!
Shallow embedding of the `sari` arithmetic-expression evaluator
(scanner → recursive-descent parser → AST → tree-walking evaluator,
plus the source-position subsystem), together with theorems settling
the specification claims.

Conventions of the embedding:
* Rust `i32` values are represented as `Int`, with every wrapping
  operation applying the two's-complement reduction `wrap32`.
* The input `&str` is represented as `List Char`; the scanner's
  position counter advances by one per character, exactly as
  `Scanner::next` increments `self.pos` once per `char`.
* Fallible operations (the `panic!` in `Token::int_value`, the
  `panic!` in `BinaryOp::from_token`, the `assert!` in
  `SourceSpan::new`, and out-of-bounds indexing in
  `SourceMap::map_pos`) return `Option`, with `none` marking a panic.
* The parser's mutual recursion carries a fuel argument; `none` also
  marks fuel exhaustion, and a theorem shows the fuel chosen by
  `parse` is never exhausted.
-/

deriving instance DecidableEq for Except

set_option maxRecDepth 1000000

namespace Sari

/-! ## 32-bit two's-complement arithmetic -/

/-- Reduce an unbounded integer to the `i32` range, two's-complement style. -/
def wrap32 (n : Int) : Int :=
  (n + 2 ^ 31) % 2 ^ 32 - 2 ^ 31

/-- Interpret a `u32` bit pattern (a natural below `2 ^ 32`) as an `i32`. -/
def u32AsI32 (u : Nat) : Int :=
  if u < 2 ^ 31 then (u : Int) else (u : Int) - 2 ^ 32

/-- `i32::wrapping_add`. -/
def wrappingAdd (a b : Int) : Int := wrap32 (a + b)

/-- `i32::wrapping_sub`. -/
def wrappingSub (a b : Int) : Int := wrap32 (a - b)

/-- `i32::wrapping_mul`. -/
def wrappingMul (a b : Int) : Int := wrap32 (a * b)

/-- `i32::wrapping_div`: truncating division, with the single overflow
case `i32::MIN / -1` wrapping back to `i32::MIN`. -/
def wrappingDiv (a b : Int) : Int := wrap32 (Int.tdiv a b)

/-! ## Spans and source positions (`source.rs`) -/

/-- `Span`: a half-open character-offset range `[start, stop)` in the input.
The Rust field `end` is named `stop` here (`end` is a Lean keyword). -/
structure Span where
  start : Nat
  stop : Nat
deriving DecidableEq, Repr

/-- `Span::cover`. -/
def Span.cover (a b : Span) : Span :=
  ⟨min a.start b.start, max a.stop b.stop⟩

/-- `SourcePos`: character offset plus 1-based line and column. -/
structure SourcePos where
  offset : Nat
  line : Nat
  column : Nat
deriving DecidableEq, Repr

/-- `SourceSpan`: a start and end `SourcePos`.  The Rust field `end` is
named `stop` here. -/
structure SourceSpan where
  start : SourcePos
  stop : SourcePos
deriving DecidableEq, Repr

/-- `SourceSpan::new`; the `assert!(start <= end)` (comparison is by
offset) is modelled by returning `none` on violation. -/
def sourceSpanNew (start stop : SourcePos) : Option SourceSpan :=
  if start.offset ≤ stop.offset then some ⟨start, stop⟩ else none

/-- `SourceMap::add_line_start`: append to the line-start list. -/
def addLineStart (lineStarts : List Nat) (pos : Nat) : List Nat :=
  lineStarts ++ [pos]

/-- The loop of `SourceMap::map_pos`: modified binary search tracking
base and window size; returns the final `index`, or `none` if the
`line_starts[mid]` read is out of bounds.  The first argument is
structural fuel; since `size` strictly decreases on every iteration,
fuel equal to the initial `size` can never run out (returning `none`
if it somehow did). -/
def mapPosLoop (lineStarts : List Nat) (pos : Nat) :
    Nat → Nat → Nat → Nat → Option Nat
  | 0, _, size, index => if size = 0 then some index else none
  | fuel + 1, base, size, index =>
    if size = 0 then some index
    else
      let half := size / 2
      let mid := base + half
      match lineStarts[mid]? with
      | none => none
      | some v =>
        if v ≤ pos then
          mapPosLoop lineStarts pos fuel (mid + 1) (size - half - 1) mid
        else
          mapPosLoop lineStarts pos fuel base (size - half - 1) index

/-- `SourceMap::map_pos`.  Note the subtraction
`pos - line_starts[index]` is the wrapping (release-mode) `usize`
subtraction, i.e. truncated subtraction on `Nat`. -/
def mapPos (lineStarts : List Nat) (pos : Nat) : Option SourcePos := do
  let index ←
    mapPosLoop lineStarts pos lineStarts.length 0 lineStarts.length 0
  let v ← lineStarts[index]?
  some ⟨pos, index + 1, pos - v + 1⟩

/-- `SourceMap::map_span`. -/
def mapSpan (lineStarts : List Nat) (span : Span) : Option SourceSpan := do
  let start ← mapPos lineStarts span.start
  let stop ← mapPos lineStarts span.stop
  sourceSpanNew start stop

/-! ## Errors (`error.rs`) -/

/-- `Error`: a resolved span plus message. -/
structure Error where
  span : SourceSpan
  message : String
deriving DecidableEq, Repr

/-- Construct an `Error` from a raw span by resolving it through the
source map (`Parser::error` / `Evaluator::error`). -/
def mkError (lineStarts : List Nat) (span : Span) (message : String) :
    Option Error := do
  let ss ← mapSpan lineStarts span
  some ⟨ss, message⟩

/-! ## Tokens (`token.rs`) -/

/-- `TokenKind`. -/
inductive TokenKind where
  | plus
  | minus
  | star
  | slash
  | lParen
  | rParen
  | int
  | error
  | eof
deriving DecidableEq, Repr

/-- The `Display` implementation of `TokenKind`. -/
def displayKind : TokenKind → String
  | .plus => "`+`"
  | .minus => "`-`"
  | .star => "`*`"
  | .slash => "`/`"
  | .lParen => "`(`"
  | .rParen => "`)`"
  | .int => "integer literal"
  | .error => "error"
  | .eof => "end of input"

/-- `TokenValue`. -/
inductive TokenValue where
  | none
  | int (value : Int)
deriving DecidableEq, Repr

/-- `Token`. -/
structure Token where
  span : Span
  kind : TokenKind
  value : TokenValue
deriving DecidableEq, Repr

/-- `Token::plus`. -/
def Token.plus (span : Span) : Token := ⟨span, .plus, .none⟩

/-- `Token::minus`. -/
def Token.minus (span : Span) : Token := ⟨span, .minus, .none⟩

/-- `Token::star`. -/
def Token.star (span : Span) : Token := ⟨span, .star, .none⟩

/-- `Token::slash`. -/
def Token.slash (span : Span) : Token := ⟨span, .slash, .none⟩

/-- `Token::l_paren`. -/
def Token.lParen (span : Span) : Token := ⟨span, .lParen, .none⟩

/-- `Token::r_paren`. -/
def Token.rParen (span : Span) : Token := ⟨span, .rParen, .none⟩

/-- `Token::int`. -/
def Token.int (span : Span) (value : Int) : Token := ⟨span, .int, .int value⟩

/-- `Token::error`. -/
def Token.mkErrorTok (span : Span) : Token := ⟨span, .error, .none⟩

/-- `Token::eof`. -/
def Token.eof (span : Span) : Token := ⟨span, .eof, .none⟩

/-- `Token::int_value`; the `panic!` on a token without an integer
value is modelled by `none`. -/
def Token.intValue (t : Token) : Option Int :=
  match t.value with
  | .int v => some v
  | .none => none

/-! ## Scanner (`scanner.rs`) -/

/-- Character classified as whitespace by the scanner. -/
def isWhitespace (ch : Char) : Bool :=
  ch == ' ' || ch == '\t' || ch == '\r' || ch == '\n'

/-- `is_digit`: ASCII digit, i.e. code point between `'0'` (48) and
`'9'` (57). -/
def isDigit (ch : Char) : Bool :=
  decide (48 ≤ ch.toNat) && decide (ch.toNat ≤ 57)

/-- `to_digit`: `(ch as u32).wrapping_sub('0' as u32) as i32`. -/
def toDigit (ch : Char) : Int :=
  u32AsI32 ((ch.toNat + 2 ^ 32 - 48) % 2 ^ 32)

/-- The mutable state of `Scanner` (position and the shared source
map); the not-yet-consumed characters are `input.drop pos`. -/
structure ScanState where
  pos : Nat
  lineStarts : List Nat
deriving DecidableEq, Repr

/-- `Scanner::next`: consume one character, registering a line start
after each newline. -/
def nextCh (input : List Char) (s : ScanState) : Option Char × ScanState :=
  match input[s.pos]? with
  | some ch =>
    (some ch,
      ⟨s.pos + 1,
        if ch = '\n' then addLineStart s.lineStarts (s.pos + 1)
        else s.lineStarts⟩)
  | none => (none, s)

/-- The loop of `Scanner::skip_whitespace`, with structural fuel.
Each iteration consumes one character, so fuel
`input.length - s.pos` can never run out: when it reaches zero the
input is exhausted and both the fuel branch and the source loop
stop. -/
def skipWhitespaceGo (input : List Char) : Nat → ScanState → ScanState
  | 0, s => s
  | fuel + 1, s =>
    match input[s.pos]? with
    | some ch =>
      if isWhitespace ch then skipWhitespaceGo input fuel (nextCh input s).2
      else s
    | none => s

/-- `Scanner::skip_whitespace`. -/
def skipWhitespace (input : List Char) (s : ScanState) : ScanState :=
  skipWhitespaceGo input (input.length - s.pos) s

/-- The loop of `Scanner::scan_int_rest`, with structural fuel (same
convention as `skipWhitespaceGo`): consume the maximal digit run,
accumulating the value with wrapping arithmetic. -/
def scanIntRestGo (input : List Char) : Nat → ScanState → Int → Int × ScanState
  | 0, s, value => (value, s)
  | fuel + 1, s, value =>
    match input[s.pos]? with
    | some ch =>
      if isDigit ch then
        scanIntRestGo input fuel (nextCh input s).2
          (wrappingAdd (wrappingMul value 10) (toDigit ch))
      else (value, s)
    | none => (value, s)

/-- `Scanner::scan_int_rest`'s loop, entered with the value of the
first digit already accumulated. -/
def scanIntRest (input : List Char) (s : ScanState) (value : Int) :
    Int × ScanState :=
  scanIntRestGo input (input.length - s.pos) s value

/-- `Scanner::scan`: produce one token. -/
def scan (input : List Char) (s0 : ScanState) : Token × ScanState :=
  let s := skipWhitespace input s0
  let start := s.pos
  match nextCh input s with
  | (none, s1) => (Token.eof ⟨start, s1.pos⟩, s1)
  | (some ch, s1) =>
    if ch = '+' then (Token.plus ⟨start, s1.pos⟩, s1)
    else if ch = '-' then (Token.minus ⟨start, s1.pos⟩, s1)
    else if ch = '*' then (Token.star ⟨start, s1.pos⟩, s1)
    else if ch = '/' then (Token.slash ⟨start, s1.pos⟩, s1)
    else if ch = '(' then (Token.lParen ⟨start, s1.pos⟩, s1)
    else if ch = ')' then (Token.rParen ⟨start, s1.pos⟩, s1)
    else if isDigit ch then
      let r := scanIntRest input s1 (toDigit ch)
      (Token.int ⟨start, r.2.pos⟩ r.1, r.2)
    else (Token.mkErrorTok ⟨start, s1.pos⟩, s1)

/-! ## AST (`ast.rs`) -/

/-- `BinaryOp`. -/
inductive BinaryOp where
  | add
  | sub
  | mul
  | div
deriving DecidableEq, Repr

/-- `BinaryOp::from_token`; the `panic!` on a non-operator token is
modelled by `none`. -/
def binaryOpFromToken (t : Token) : Option BinaryOp :=
  match t.kind with
  | .plus => some .add
  | .minus => some .sub
  | .star => some .mul
  | .slash => some .div
  | _ => none

/-- `Expr`: the tagged-union AST (`IntExpr` / `GroupExpr` /
`BinaryExpr`). -/
inductive Expr where
  | int (span : Span) (value : Int)
  | group (span : Span) (expr : Expr)
  | binary (span : Span) (op : BinaryOp) (left right : Expr)
deriving DecidableEq, Repr

/-- The `Spanned` implementation for `Expr`. -/
def Expr.span : Expr → Span
  | .int sp _ => sp
  | .group sp _ => sp
  | .binary sp _ _ _ => sp

/-! ## Parser (`parser.rs`) -/

/-- The mutable state of `Parser`: the scanner state plus the buffered
current token. -/
structure PState where
  scanSt : ScanState
  current : Token
deriving DecidableEq, Repr

/-- `Parser::advance`: scan the next token, returning the replaced
current one. -/
def advance (input : List Char) (ps : PState) : Token × PState :=
  let r := scan input ps.scanSt
  (ps.current, ⟨r.2, r.1⟩)

/-- `Parser::expect`. -/
def expect (input : List Char) (ps : PState) (kind : TokenKind) :
    Option (Except Error (Token × PState)) :=
  if ps.current.kind = kind then some (.ok (advance input ps))
  else
    match mkError ps.scanSt.lineStarts ps.current.span
        ("expected " ++ displayKind kind) with
    | some e => some (.error e)
    | none => none

mutual

/-- `Parser::parse_expr` (fuel-indexed). -/
def parseExpr : Nat → List Char → PState → Option (Except Error (Expr × PState))
  | 0, _, _ => none
  | n + 1, input, ps =>
    match parseTerm n input ps with
    | none => none
    | some (.error e) => some (.error e)
    | some (.ok (left, ps)) => parseExprLoop n input left ps

/-- The `while` loop of `Parser::parse_expr`. -/
def parseExprLoop : Nat → List Char → Expr → PState →
    Option (Except Error (Expr × PState))
  | 0, _, _, _ => none
  | n + 1, input, left, ps =>
    if ps.current.kind = .plus ∨ ps.current.kind = .minus then
      let r := advance input ps
      match binaryOpFromToken r.1 with
      | none => none
      | some op =>
        match parseTerm n input r.2 with
        | none => none
        | some (.error e) => some (.error e)
        | some (.ok (right, ps)) =>
          parseExprLoop n input
            (Expr.binary (Span.cover left.span right.span) op left right) ps
    else some (.ok (left, ps))

/-- `Parser::parse_term` (fuel-indexed). -/
def parseTerm : Nat → List Char → PState → Option (Except Error (Expr × PState))
  | 0, _, _ => none
  | n + 1, input, ps =>
    match parseFactor n input ps with
    | none => none
    | some (.error e) => some (.error e)
    | some (.ok (left, ps)) => parseTermLoop n input left ps

/-- The `while` loop of `Parser::parse_term`. -/
def parseTermLoop : Nat → List Char → Expr → PState →
    Option (Except Error (Expr × PState))
  | 0, _, _, _ => none
  | n + 1, input, left, ps =>
    if ps.current.kind = .star ∨ ps.current.kind = .slash then
      let r := advance input ps
      match binaryOpFromToken r.1 with
      | none => none
      | some op =>
        match parseFactor n input r.2 with
        | none => none
        | some (.error e) => some (.error e)
        | some (.ok (right, ps)) =>
          parseTermLoop n input
            (Expr.binary (Span.cover left.span right.span) op left right) ps
    else some (.ok (left, ps))

/-- `Parser::parse_factor` (fuel-indexed). -/
def parseFactor : Nat → List Char → PState → Option (Except Error (Expr × PState))
  | 0, _, _ => none
  | n + 1, input, ps =>
    match ps.current.kind with
    | .int =>
      let r := advance input ps
      match r.1.intValue with
      | none => none
      | some v => some (.ok (Expr.int r.1.span v, r.2))
    | .lParen =>
      let r := advance input ps
      match parseExpr n input r.2 with
      | none => none
      | some (.error e) => some (.error e)
      | some (.ok (inner, ps)) =>
        match expect input ps .rParen with
        | none => none
        | some (.error e) => some (.error e)
        | some (.ok (rp, ps)) =>
          some (.ok (Expr.group (Span.cover r.1.span rp.span) inner, ps))
    | _ =>
      match mkError ps.scanSt.lineStarts ps.current.span
          ("expected " ++ displayKind .int ++ " or " ++ displayKind .lParen) with
      | some e => some (.error e)
      | none => none

end

/-- `Parser::parse`: prime the lookahead, parse an expression, require
`Eof`.  Returns the AST together with the final line-start list (the
shared source map, which the evaluator reads afterwards).  The fuel
`5 * input.length + 10` bounds the recursion depth; the totality
theorem shows it is never exhausted. -/
def parse (input : List Char) : Option (Except Error (Expr × List Nat)) :=
  let ps0 : PState := ⟨⟨0, [0]⟩, Token.eof ⟨0, 0⟩⟩
  let r := advance input ps0
  match parseExpr (5 * input.length + 10) input r.2 with
  | none => none
  | some (.error e) => some (.error e)
  | some (.ok (expr, ps)) =>
    match expect input ps .eof with
    | none => none
    | some (.error e) => some (.error e)
    | some (.ok (_, ps)) => some (.ok (expr, ps.scanSt.lineStarts))

/-! ## Evaluator (`evaluator.rs`) -/

/-- `Evaluator::eval_expr` (with `eval_int_expr`, `eval_group_expr`,
and `eval_binary_expr` inlined as its match arms). -/
def evalExpr (lineStarts : List Nat) : Expr → Option (Except Error Int)
  | .int _ v => some (.ok v)
  | .group _ e => evalExpr lineStarts e
  | .binary sp op l r =>
    match evalExpr lineStarts l with
    | none => none
    | some (.error e) => some (.error e)
    | some (.ok left) =>
      match evalExpr lineStarts r with
      | none => none
      | some (.error e) => some (.error e)
      | some (.ok right) =>
        match op with
        | .add => some (.ok (wrappingAdd left right))
        | .sub => some (.ok (wrappingSub left right))
        | .mul => some (.ok (wrappingMul left right))
        | .div =>
          if right = 0 then
            match mkError lineStarts sp "division by zero" with
            | some e => some (.error e)
            | none => none
          else some (.ok (wrappingDiv left right))

/-! ## Entry point (`lib.rs`) -/

/-- `sari::eval`: the whole pipeline. -/
def eval (input : List Char) : Option (Except Error Int) :=
  match parse input with
  | none => none
  | some (.error e) => some (.error e)
  | some (.ok (ast, lineStarts)) => evalExpr lineStarts ast

/-! ## Auxiliary definitions used by the claims -/

/-- The stream of tokens produced for an input, up to and including
the first `Eof` token (fuel-indexed; `input.length + 1` always
suffices). -/
def scanList (input : List Char) : Nat → ScanState → List Token
  | 0, _ => []
  | n + 1, s =>
    let r := scan input s
    if r.1.kind = .eof then [r.1] else r.1 :: scanList input n r.2

/-- All tokens scanned from a fresh scanner, through the first `Eof`. -/
def scanTokens (input : List Char) : List Token :=
  scanList input (input.length + 1) ⟨0, [0]⟩

/-- A span covers a character offset. -/
def Span.covers (sp : Span) (i : Nat) : Prop :=
  sp.start ≤ i ∧ i < sp.stop

instance (sp : Span) (i : Nat) : Decidable (sp.covers i) := by
  unfold Span.covers; infer_instance

/-- The ASCII character of a decimal digit. -/
def digitChar (d : Nat) : Char := Char.ofNat (48 + d)

/-- The decimal rendering of a natural number, with structural fuel
(any fuel above the digit count gives the same result; `n` itself is
always enough since `n / 10 < n` for `n ≥ 10`). -/
def natDigitsGo : Nat → Nat → List Char
  | 0, n => [digitChar n]
  | fuel + 1, n =>
    if n < 10 then [digitChar n]
    else natDigitsGo fuel (n / 10) ++ [digitChar (n % 10)]

/-- The decimal rendering of a natural number, as a character list. -/
def natDigits (n : Nat) : List Char := natDigitsGo n n

/-- `str(n)` for an integer: optional leading minus sign plus decimal
digits. -/
def intStr (n : Int) : List Char :=
  if n < 0 then '-' :: natDigits n.natAbs else natDigits n.toNat

/-- Byte offset of the character at index `i` of the input, under the
UTF-8 encoding. -/
def byteOffset (input : List Char) (i : Nat) : Nat :=
  ((input.take i).map Char.utf8Size).sum

/-! ## Arithmetic helper lemmas -/

theorem wrap32_eq_self {n : Int} (h1 : -2 ^ 31 ≤ n) (h2 : n < 2 ^ 31) :
    wrap32 n = n := by
  unfold wrap32
  rw [Int.emod_eq_of_lt (by omega) (by omega)]
  omega

theorem tdiv_range {vl vr : Int} (h1 : -2 ^ 31 ≤ vl) (h2 : vl < 2 ^ 31)
    (h3 : vr ≠ 0) (h4 : ¬(vl = -2 ^ 31 ∧ vr = -1)) :
    -2 ^ 31 ≤ Int.tdiv vl vr ∧ Int.tdiv vl vr < 2 ^ 31 := by
  have habs : (Int.tdiv vl vr).natAbs = vl.natAbs / vr.natAbs :=
    Int.natAbs_tdiv vl vr
  have hvl : vl.natAbs ≤ 2 ^ 31 := by omega
  have hq : (Int.tdiv vl vr).natAbs ≤ 2 ^ 31 := by
    rw [habs]; exact Nat.le_trans (Nat.div_le_self _ _) hvl
  refine ⟨by omega, ?_⟩
  by_contra hge
  have heq : Int.tdiv vl vr = 2 ^ 31 := by omega
  have hq2 : vl.natAbs / vr.natAbs = 2 ^ 31 := by
    rw [← habs, heq]; rfl
  have hvr1 : vr.natAbs = 1 := by
    by_contra hne
    have h2vr : 2 ≤ vr.natAbs := by omega
    have : vl.natAbs / vr.natAbs ≤ vl.natAbs / 2 :=
      Nat.div_le_div_left h2vr (by omega)
    have : vl.natAbs / 2 ≤ 2 ^ 31 / 2 := Nat.div_le_div_right hvl
    omega
  have hvlMin : vl = -2 ^ 31 := by
    have : vl.natAbs = 2 ^ 31 := by
      rw [hvr1, Nat.div_one] at hq2; exact hq2
    omega
  have hvrPos : vr = 1 := by omega
  rw [hvlMin, hvrPos] at heq
  exact absurd heq (by decide)

/-! ## Scanner helper lemmas -/

theorem digit_bounds {c : Char} (h : isDigit c = true) :
    48 ≤ c.toNat ∧ c.toNat ≤ 57 := by
  simpa [isDigit] using h

theorem not_whitespace_of_digit {c : Char} (h : isDigit c = true) :
    isWhitespace c = false := by
  have h' := digit_bounds h
  have e1 : c ≠ ' ' := by rintro rfl; revert h'; decide
  have e2 : c ≠ '\t' := by rintro rfl; revert h'; decide
  have e3 : c ≠ '\r' := by rintro rfl; revert h'; decide
  have e4 : c ≠ '\n' := by rintro rfl; revert h'; decide
  simp [isWhitespace, e1, e2, e3, e4]

theorem digit_char_class {c : Char} (h : isDigit c = true) :
    c ≠ '+' ∧ c ≠ '-' ∧ c ≠ '*' ∧ c ≠ '/' ∧ c ≠ '(' ∧ c ≠ ')' ∧ c ≠ '\n' := by
  have h' := digit_bounds h
  refine ⟨?_, ?_, ?_, ?_, ?_, ?_, ?_⟩ <;> (rintro rfl; revert h'; decide)

theorem toDigit_eq {c : Char} (h : isDigit c = true) :
    toDigit c = (c.toNat : Int) - 48 := by
  have h' := digit_bounds h
  unfold toDigit u32AsI32
  have hmod : (c.toNat + 2 ^ 32 - 48) % 2 ^ 32 = c.toNat - 48 := by
    have : c.toNat + 2 ^ 32 - 48 = (c.toNat - 48) + 2 ^ 32 := by omega
    rw [this, Nat.add_mod_right]
    exact Nat.mod_eq_of_lt (by omega)
  rw [hmod, if_pos (by omega)]
  omega

theorem toDigit_range {c : Char} (h : isDigit c = true) :
    0 ≤ toDigit c ∧ toDigit c ≤ 9 := by
  have h' := digit_bounds h
  rw [toDigit_eq h]
  omega

theorem skipWhitespaceGo_not_ws {input : List Char} {s : ScanState} {c : Char}
    (fuel : Nat) (hc : input[s.pos]? = some c) (hw : isWhitespace c = false) :
    skipWhitespaceGo input fuel s = s := by
  cases fuel with
  | zero => rfl
  | succ n => simp [skipWhitespaceGo, hc, hw]

theorem skipWhitespace_not_ws {input : List Char} {s : ScanState} {c : Char}
    (hc : input[s.pos]? = some c) (hw : isWhitespace c = false) :
    skipWhitespace input s = s :=
  skipWhitespaceGo_not_ws _ hc hw

/-- The accumulation step of `scan_int_rest`. -/
def intStep (v : Int) (c : Char) : Int :=
  wrappingAdd (wrappingMul v 10) (toDigit c)

theorem scanIntRestGo_spec (input : List Char) :
    ∀ (fuel : Nat) (s : ScanState) (v : Int),
      input.length ≤ s.pos + fuel →
      scanIntRestGo input fuel s v =
        (((input.drop s.pos).takeWhile isDigit).foldl intStep v,
         ⟨s.pos + ((input.drop s.pos).takeWhile isDigit).length,
          s.lineStarts⟩) := by
  intro fuel
  induction fuel with
  | zero =>
    intro s v hle
    have hdrop : input.drop s.pos = [] := List.drop_eq_nil_of_le (by omega)
    simp [scanIntRestGo, hdrop]
  | succ n ih =>
    intro s v hle
    match hc : input[s.pos]? with
    | none =>
      have hdrop : input.drop s.pos = [] :=
        List.drop_eq_nil_of_le (List.getElem?_eq_none_iff.mp hc)
      simp [scanIntRestGo, hc, hdrop]
    | some c =>
      have hlt : s.pos < input.length := (List.getElem?_eq_some_iff.mp hc).1
      have hget : input[s.pos] = c := (List.getElem?_eq_some_iff.mp hc).2
      have hdrop : input.drop s.pos = c :: input.drop (s.pos + 1) := by
        rw [List.drop_eq_getElem_cons hlt, hget]
      by_cases hd : isDigit c = true
      · have hnl : c ≠ '\n' := (digit_char_class hd).2.2.2.2.2.2
        have hnext : (nextCh input s).2 = ⟨s.pos + 1, s.lineStarts⟩ := by
          simp [nextCh, hc, hnl]
        simp only [scanIntRestGo, hc]
        rw [if_pos hd, hnext,
          ih ⟨s.pos + 1, s.lineStarts⟩ _
            (by show input.length ≤ s.pos + 1 + n; omega),
          hdrop, List.takeWhile_cons, if_pos hd, List.foldl_cons,
          List.length_cons]
        dsimp only
        simp only [intStep, Prod.mk.injEq, ScanState.mk.injEq, true_and,
          and_true]
        omega
      · simp only [scanIntRestGo, hc]
        rw [if_neg hd, hdrop, List.takeWhile_cons, if_neg hd]
        simp

theorem scanIntRest_spec (input : List Char) (s : ScanState) (v : Int) :
    scanIntRest input s v =
      (((input.drop s.pos).takeWhile isDigit).foldl intStep v,
       ⟨s.pos + ((input.drop s.pos).takeWhile isDigit).length,
        s.lineStarts⟩) :=
  scanIntRestGo_spec input _ s v (by omega)

/-- `scan` on a state whose next character is an ASCII digit: the
token is `Int`, covering exactly the maximal digit run, with the
wrapping-fold value. -/
theorem scan_digit {input : List Char} {s : ScanState} {c : Char}
    (hc : input[s.pos]? = some c) (hd : isDigit c = true) :
    scan input s =
      (Token.int
        ⟨s.pos, s.pos + ((input.drop s.pos).takeWhile isDigit).length⟩
        (((input.drop s.pos).takeWhile isDigit).foldl intStep 0),
       ⟨s.pos + ((input.drop s.pos).takeWhile isDigit).length,
        s.lineStarts⟩) := by
  obtain ⟨hp, hm, hst, hsl, hlp, hrp, hnl⟩ := digit_char_class hd
  have hskip : skipWhitespace input s = s :=
    skipWhitespace_not_ws hc (not_whitespace_of_digit hd)
  have hlt : s.pos < input.length := (List.getElem?_eq_some_iff.mp hc).1
  have hget : input[s.pos] = c := (List.getElem?_eq_some_iff.mp hc).2
  have hdrop : input.drop s.pos = c :: input.drop (s.pos + 1) := by
    rw [List.drop_eq_getElem_cons hlt, hget]
  have hstep0 : intStep 0 c = toDigit c := by
    have hr := toDigit_range hd
    have h1 : wrappingMul 0 10 = 0 := by decide
    have h2 : wrappingAdd 0 (toDigit c) = toDigit c := by
      unfold wrappingAdd
      rw [Int.zero_add]
      exact wrap32_eq_self (by omega) (by omega)
    simp only [intStep]
    rw [h1, h2]
  rw [scan, hskip]
  simp only [nextCh, hc]
  rw [if_neg hp, if_neg hm, if_neg hst, if_neg hsl, if_neg hlp, if_neg hrp,
    if_pos hd, if_neg hnl]
  rw [scanIntRest_spec]
  dsimp only
  rw [hdrop, List.takeWhile_cons, if_pos hd, List.foldl_cons, hstep0,
    List.length_cons]
  simp only [Token.int, Prod.mk.injEq, Token.mk.injEq, Span.mk.injEq,
    ScanState.mk.injEq, true_and, and_true]
  omega

/-! ## Whitespace-skipping facts -/

theorem skipWhitespaceGo_peek_none {input : List Char} {s : ScanState}
    (fuel : Nat) (h : input[s.pos]? = none) :
    skipWhitespaceGo input fuel s = s := by
  cases fuel with
  | zero => rfl
  | succ n => simp [skipWhitespaceGo, h]

theorem skipWhitespaceGo_facts (input : List Char) :
    ∀ (fuel : Nat) (s : ScanState),
      input.length ≤ s.pos + fuel →
      s.pos ≤ (skipWhitespaceGo input fuel s).pos ∧
      (s.pos ≤ input.length →
        (skipWhitespaceGo input fuel s).pos ≤ input.length) ∧
      (∀ i, s.pos ≤ i → i < (skipWhitespaceGo input fuel s).pos →
        ∃ c, input[i]? = some c ∧ isWhitespace c = true) ∧
      (∀ c, input[(skipWhitespaceGo input fuel s).pos]? = some c →
        isWhitespace c = false) ∧
      (s.lineStarts ≠ [] →
        (skipWhitespaceGo input fuel s).lineStarts ≠ []) := by
  intro fuel
  induction fuel with
  | zero =>
    intro s hle
    simp only [skipWhitespaceGo]
    refine ⟨Nat.le_refl _, fun h => h, fun i h1 h2 => absurd h2 (by omega),
      ?_, fun h => h⟩
    intro c hc
    have := (List.getElem?_eq_some_iff.mp hc).1
    omega
  | succ n ih =>
    intro s hle
    match hpk : input[s.pos]? with
    | none =>
      have hlen : input.length ≤ s.pos := List.getElem?_eq_none_iff.mp hpk
      simp only [skipWhitespaceGo, hpk]
      exact ⟨Nat.le_refl _, fun h => h, fun i h1 h2 => absurd h2 (by omega),
        fun c hc => absurd hc (by simp [hpk]), fun h => h⟩
    | some c =>
      have hlt : s.pos < input.length := (List.getElem?_eq_some_iff.mp hpk).1
      by_cases hw : isWhitespace c = true
      · obtain ⟨ls1, hls1, hls1ne⟩ :
            ∃ ls1, (nextCh input s).2 = ⟨s.pos + 1, ls1⟩ ∧
              (s.lineStarts ≠ [] → ls1 ≠ []) := by
          simp only [nextCh, hpk]
          refine ⟨_, rfl, fun hne => ?_⟩
          split
          · simp [addLineStart]
          · exact hne
        simp only [skipWhitespaceGo, hpk]
        rw [if_pos hw, hls1]
        obtain ⟨ih1, ih2, ih3, ih4, ih5⟩ :=
          ih ⟨s.pos + 1, ls1⟩ (by show input.length ≤ s.pos + 1 + n; omega)
        dsimp only at ih1 ih2 ih3 ih4 ih5
        refine ⟨by omega, fun _ => by have := ih2 (by omega); omega, ?_, ih4,
          fun hne => ih5 (hls1ne hne)⟩
        intro i h1 h2
        rcases Nat.eq_or_lt_of_le h1 with h1 | h1
        · exact ⟨c, h1 ▸ hpk, hw⟩
        · exact ih3 i (by omega) h2
      · simp only [skipWhitespaceGo, hpk]
        rw [if_neg hw]
        refine ⟨Nat.le_refl _, fun h => h, fun i h1 h2 => absurd h2 (by omega),
          ?_, fun h => h⟩
        intro c' hc'
        rw [hpk] at hc'
        cases hc'
        simpa using hw

theorem skipWhitespace_facts (input : List Char) (s : ScanState) :
    s.pos ≤ (skipWhitespace input s).pos ∧
    (s.pos ≤ input.length → (skipWhitespace input s).pos ≤ input.length) ∧
    (∀ i, s.pos ≤ i → i < (skipWhitespace input s).pos →
      ∃ c, input[i]? = some c ∧ isWhitespace c = true) ∧
    (∀ c, input[(skipWhitespace input s).pos]? = some c →
      isWhitespace c = false) ∧
    (s.lineStarts ≠ [] → (skipWhitespace input s).lineStarts ≠ []) :=
  skipWhitespaceGo_facts input _ s (by omega)

theorem skipWhitespace_idem (input : List Char) (s : ScanState) :
    skipWhitespace input (skipWhitespace input s) = skipWhitespace input s := by
  obtain ⟨-, -, -, h4, -⟩ := skipWhitespace_facts input s
  match hpk : input[(skipWhitespace input s).pos]? with
  | none => exact skipWhitespaceGo_peek_none _ hpk
  | some c => exact skipWhitespace_not_ws hpk (h4 c hpk)

theorem scan_eq_scan_skip (input : List Char) (s : ScanState) :
    scan input s = scan input (skipWhitespace input s) := by
  rw [scan, scan, skipWhitespace_idem]

/-! ## Scan case lemmas -/

theorem scan_peek_none {input : List Char} {s : ScanState}
    (h : input[s.pos]? = none) :
    scan input s = (Token.eof ⟨s.pos, s.pos⟩, s) := by
  have hskip : skipWhitespace input s = s := skipWhitespaceGo_peek_none _ h
  rw [scan, hskip]
  simp [nextCh, h]

theorem scan_single {input : List Char} {s : ScanState} {c : Char}
    (hc : input[s.pos]? = some c) (hw : isWhitespace c = false)
    (hd : isDigit c = false) :
    ∃ k, scan input s =
        (⟨⟨s.pos, s.pos + 1⟩, k, .none⟩, ⟨s.pos + 1, s.lineStarts⟩) ∧
      k ≠ .eof ∧ k ≠ .int := by
  have hnl : c ≠ '\n' := by rintro rfl; revert hw; decide
  have hskip : skipWhitespace input s = s := skipWhitespace_not_ws hc hw
  rw [scan, hskip]
  simp only [nextCh, hc, if_neg hnl]
  split_ifs with h1 h2 h3 h4 h5 h6 h7
  · exact ⟨.plus, rfl, by decide, by decide⟩
  · exact ⟨.minus, rfl, by decide, by decide⟩
  · exact ⟨.star, rfl, by decide, by decide⟩
  · exact ⟨.slash, rfl, by decide, by decide⟩
  · exact ⟨.lParen, rfl, by decide, by decide⟩
  · exact ⟨.rParen, rfl, by decide, by decide⟩
  · rw [hd] at h7; cases h7
  · exact ⟨.error, rfl, by decide, by decide⟩

/-- All the facts about one `scan` step needed for the coverage and
totality arguments. -/
def ScanStep (input : List Char) (s : ScanState) (t : Token)
    (s' : ScanState) : Prop :=
  s.pos ≤ t.span.start ∧
  t.span.stop = s'.pos ∧
  t.span.start ≤ t.span.stop ∧
  s'.pos ≤ input.length ∧
  (∀ i, s.pos ≤ i → i < t.span.start →
    ∃ c, input[i]? = some c ∧ isWhitespace c = true) ∧
  (∀ i, t.span.start ≤ i → i < t.span.stop →
    ∃ c, input[i]? = some c ∧ isWhitespace c = false) ∧
  (t.kind = .eof → t.span.start = t.span.stop ∧ s'.pos = input.length) ∧
  (t.kind ≠ .eof → t.span.start < t.span.stop) ∧
  (t.kind = .int → ∃ v, t.value = .int v) ∧
  (s.lineStarts ≠ [] → s'.lineStarts ≠ [])

theorem scan_scanStep (input : List Char) (s : ScanState)
    (hpos : s.pos ≤ input.length) :
    ScanStep input s (scan input s).1 (scan input s).2 := by
  obtain ⟨w1, w2, w3, w4, w5⟩ := skipWhitespace_facts input s
  have hswle : (skipWhitespace input s).pos ≤ input.length := w2 hpos
  rw [scan_eq_scan_skip]
  match hpk : input[(skipWhitespace input s).pos]? with
  | none =>
    have hlen : input.length ≤ (skipWhitespace input s).pos :=
      List.getElem?_eq_none_iff.mp hpk
    rw [scan_peek_none hpk]
    refine ⟨w1, rfl, Nat.le_refl _, hswle, ?_, ?_, ?_, ?_, ?_, w5⟩
    · exact fun i h1 h2 => w3 i h1 h2
    · intro i h1 h2
      have h1' : (skipWhitespace input s).pos ≤ i := h1
      have h2' : i < (skipWhitespace input s).pos := h2
      omega
    · exact fun _ => ⟨rfl, show (skipWhitespace input s).pos = input.length
        by omega⟩
    · intro h; exact absurd rfl h
    · intro h; exact TokenKind.noConfusion h
  | some c =>
    have hw : isWhitespace c = false := w4 c hpk
    have hlt : (skipWhitespace input s).pos < input.length :=
      (List.getElem?_eq_some_iff.mp hpk).1
    by_cases hd : isDigit c = true
    · rw [scan_digit hpk hd]
      set sw := skipWhitespace input s with hsw
      set run := (input.drop sw.pos).takeWhile isDigit with hrun
      have hpref : run <+: input.drop sw.pos := List.takeWhile_prefix _
      have hrunlen : run.length ≤ input.length - sw.pos := by
        calc run.length ≤ (input.drop sw.pos).length :=
              hpref.length_le
        _ = input.length - sw.pos := List.length_drop _ _
      have hrunpos : 0 < run.length := by
        have hdrop : input.drop sw.pos = c :: input.drop (sw.pos + 1) := by
          rw [List.drop_eq_getElem_cons hlt,
            (List.getElem?_eq_some_iff.mp hpk).2]
        rw [hrun, hdrop, List.takeWhile_cons, if_pos hd]
        simp
      have hrunelt : ∀ i, sw.pos ≤ i → i < sw.pos + run.length →
          ∃ ch, input[i]? = some ch ∧ isWhitespace ch = false := by
        intro i h1 h2
        have hj : i - sw.pos < run.length := by omega
        have hjdrop : i - sw.pos < (input.drop sw.pos).length := by
          rw [List.length_drop]; omega
        have hilen : i < input.length := by omega
        have hgetr : run[i - sw.pos] = (input.drop sw.pos)[i - sw.pos] :=
          hpref.getElem hj
        have hgetd : (input.drop sw.pos)[i - sw.pos] = input[i] := by
          rw [List.getElem_drop]
          congr 1
          omega
        have hmem : run[i - sw.pos] ∈ run := List.getElem_mem _
        have hdig : isDigit run[i - sw.pos] = true :=
          List.mem_takeWhile_imp hmem
        refine ⟨input[i], by
          rw [List.getElem?_eq_some_iff]; exact ⟨by omega, rfl⟩, ?_⟩
        rw [← hgetd, ← hgetr]
        exact not_whitespace_of_digit hdig
      refine ⟨w1, rfl, show sw.pos ≤ sw.pos + run.length by omega,
        show sw.pos + run.length ≤ input.length by omega, ?_, ?_, ?_, ?_, ?_,
        w5⟩
      · exact fun i h1 h2 => w3 i h1 h2
      · exact hrunelt
      · intro h; exact TokenKind.noConfusion h
      · intro _; show sw.pos < sw.pos + run.length; omega
      · intro _; exact ⟨_, rfl⟩
    · have hd' : isDigit c = false := by
        cases hdd : isDigit c
        · rfl
        · exact absurd hdd hd
      obtain ⟨k, heq, hk1, hk2⟩ := scan_single hpk hw hd'
      rw [heq]
      refine ⟨w1, rfl,
        show (skipWhitespace input s).pos ≤ (skipWhitespace input s).pos + 1
          by omega,
        show (skipWhitespace input s).pos + 1 ≤ input.length by omega,
        ?_, ?_, ?_, ?_, ?_, w5⟩
      · exact fun i h1 h2 => w3 i h1 h2
      · intro i h1 h2
        have h1' : (skipWhitespace input s).pos ≤ i := h1
        have h2' : i < (skipWhitespace input s).pos + 1 := h2
        have : i = (skipWhitespace input s).pos := by omega
        exact ⟨c, this ▸ hpk, hw⟩
      · intro h; exact absurd h hk1
      · intro _
        show (skipWhitespace input s).pos < (skipWhitespace input s).pos + 1
        omega
      · intro h; exact absurd h hk2

/-! ## Token-stream facts -/

theorem scanList_facts (input : List Char) :
    ∀ (fuel : Nat) (s : ScanState),
      s.pos ≤ input.length → input.length < s.pos + fuel →
      (∀ t ∈ scanList input fuel s,
        s.pos ≤ t.span.start ∧ t.span.start ≤ t.span.stop ∧
        t.span.stop ≤ input.length) ∧
      List.Pairwise (fun a b => a.span.stop ≤ b.span.start)
        (scanList input fuel s) ∧
      (∀ i, s.pos ≤ i → i < input.length →
        (∃ t ∈ scanList input fuel s, t.span.covers i) ∨
        ∃ c, input[i]? = some c ∧ isWhitespace c = true) ∧
      (∀ t ∈ scanList input fuel s, ∀ i, t.span.covers i →
        ∃ c, input[i]? = some c ∧ isWhitespace c = false) ∧
      (∃ t, (scanList input fuel s).getLast? = some t ∧ t.kind = .eof ∧
        t.span = ⟨input.length, input.length⟩) := by
  intro fuel
  induction fuel with
  | zero =>
    intro s hpos hfuel
    exact absurd hfuel (by omega)
  | succ n ih =>
    intro s hpos hfuel
    obtain ⟨p1, p2, p3, p4, p5, p6, p7, p8, p9, p10⟩ :=
      scan_scanStep input s hpos
    by_cases heof : (scan input s).1.kind = .eof
    · obtain ⟨pe1, pe2⟩ := p7 heof
      have hstart : (scan input s).1.span.start = input.length := by omega
      have hstop : (scan input s).1.span.stop = input.length := by omega
      simp only [scanList]
      rw [if_pos heof]
      refine ⟨?_, ?_, ?_, ?_, ?_⟩
      · intro t ht
        rw [List.mem_singleton] at ht
        subst ht
        exact ⟨p1, p3, by omega⟩
      · simp
      · intro i h1 h2
        exact Or.inr (p5 i h1 (by omega))
      · intro t ht i hcov
        rw [List.mem_singleton] at ht
        subst ht
        exact absurd hcov (by
          intro hcov
          obtain ⟨hc1, hc2⟩ := hcov
          omega)
      · refine ⟨(scan input s).1, by simp, heof, ?_⟩
        show (⟨(scan input s).1.span.start, (scan input s).1.span.stop⟩ : Span)
          = ⟨input.length, input.length⟩
        rw [hstart, hstop]
    · have hlt : (scan input s).1.span.start < (scan input s).1.span.stop :=
        p8 heof
      have hpos' : (scan input s).2.pos ≤ input.length := p4
      obtain ⟨ih1, ih2, ih3, ih4, ih5⟩ := ih (scan input s).2 p4 (by omega)
      simp only [scanList]
      rw [if_neg heof]
      refine ⟨?_, ?_, ?_, ?_, ?_⟩
      · intro t ht
        rcases List.mem_cons.mp ht with ht | ht
        · subst ht
          exact ⟨p1, p3, by omega⟩
        · obtain ⟨q1, q2, q3⟩ := ih1 t ht
          exact ⟨by omega, q2, q3⟩
      · refine List.Pairwise.cons ?_ ih2
        intro t' ht'
        have := (ih1 t' ht').1
        omega
      · intro i h1 h2
        by_cases hlo : i < (scan input s).1.span.start
        · exact Or.inr (p5 i h1 hlo)
        · by_cases hhi : i < (scan input s).1.span.stop
          · exact Or.inl ⟨(scan input s).1, List.mem_cons_self _ _,
              by omega, hhi⟩
          · rcases ih3 i (by omega) h2 with ⟨t', ht', hcov⟩ | hws
            · exact Or.inl ⟨t', List.mem_cons_of_mem _ ht', hcov⟩
            · exact Or.inr hws
      · intro t ht i hcov
        rcases List.mem_cons.mp ht with ht | ht
        · subst ht
          exact p6 i hcov.1 hcov.2
        · exact ih4 t ht i hcov
      · obtain ⟨te, hte, hkind, hspan⟩ := ih5
        match hrest : scanList input n (scan input s).2 with
        | [] => rw [hrest] at hte; cases hte
        | t' :: rest =>
          rw [hrest] at hte
          exact ⟨te, by rw [List.getLast?_cons_cons, hte], hkind, hspan⟩

theorem byteOffset_of_ascii :
    ∀ (l : List Char), (∀ c ∈ l, c.utf8Size = 1) →
      ∀ i, i ≤ l.length → byteOffset l i = i := by
  intro l
  induction l with
  | nil =>
    intro _ i hi
    have : i = 0 := by simpa using hi
    subst this
    rfl
  | cons c l ih =>
    intro hall i hi
    match i with
    | 0 => rfl
    | i + 1 =>
      have hc : c.utf8Size = 1 := hall c (List.mem_cons_self _ _)
      have hrest : ∀ c' ∈ l, c'.utf8Size = 1 :=
        fun c' hc' => hall c' (List.mem_cons_of_mem _ hc')
      have := ih hrest i (by simpa using hi)
      simp only [byteOffset, List.take_succ_cons, List.map_cons, List.sum_cons,
        hc] at *
      omega

/-! ## Totality of the source map -/

theorem mapPosLoop_some (ls : List Nat) (p : Nat) :
    ∀ (fuel : Nat) (base size index : Nat), size ≤ fuel →
      base + size ≤ ls.length → index < ls.length →
      ∃ j, mapPosLoop ls p fuel base size index = some j ∧ j < ls.length := by
  intro fuel
  induction fuel with
  | zero =>
    intro base size index h1 h2 h3
    have hsz : size = 0 := by omega
    subst hsz
    exact ⟨index, by simp [mapPosLoop], h3⟩
  | succ n ih =>
    intro base size index h1 h2 h3
    by_cases hsz : size = 0
    · subst hsz
      exact ⟨index, by simp [mapPosLoop], h3⟩
    · have hmid : base + size / 2 < ls.length := by omega
      simp only [mapPosLoop]
      rw [if_neg hsz, List.getElem?_eq_getElem hmid]
      dsimp only
      by_cases hcmp : ls[base + size / 2] ≤ p
      · rw [if_pos hcmp]
        exact ih (base + size / 2 + 1) (size - size / 2 - 1) (base + size / 2)
          (by omega) (by omega) hmid
      · rw [if_neg hcmp]
        exact ih base (size - size / 2 - 1) index (by omega) (by omega) h3

theorem mapPos_total (ls : List Nat) (p : Nat) (h : ls ≠ []) :
    ∃ sp, mapPos ls p = some sp ∧ sp.offset = p := by
  have hlen : 0 < ls.length := List.length_pos.mpr h
  obtain ⟨j, hj, hjlt⟩ :=
    mapPosLoop_some ls p ls.length 0 ls.length 0 (Nat.le_refl _)
      (by omega) hlen
  refine ⟨⟨p, j + 1, p - ls[j] + 1⟩, ?_, rfl⟩
  simp [mapPos, hj, List.getElem?_eq_getElem hjlt]

theorem mapSpan_total (ls : List Nat) (sp : Span) (h : ls ≠ [])
    (hwf : sp.start ≤ sp.stop) :
    ∃ ss, mapSpan ls sp = some ss := by
  obtain ⟨a, ha, hao⟩ := mapPos_total ls sp.start h
  obtain ⟨b, hb, hbo⟩ := mapPos_total ls sp.stop h
  refine ⟨⟨a, b⟩, ?_⟩
  simp [mapSpan, ha, hb, sourceSpanNew, hao, hbo, hwf]

theorem mkError_some (ls : List Nat) (sp : Span) (msg : String)
    (h : ls ≠ []) (hwf : sp.start ≤ sp.stop) :
    ∃ e, mkError ls sp msg = some e := by
  obtain ⟨ss, hss⟩ := mapSpan_total ls sp h hwf
  exact ⟨⟨ss, msg⟩, by simp [mkError, hss]⟩

/-! ## Parser invariants -/

/-- Every span in an expression is well-formed (`start ≤ stop`). -/
def exprOk : Expr → Prop
  | .int sp _ => sp.start ≤ sp.stop
  | .group sp e => sp.start ≤ sp.stop ∧ exprOk e
  | .binary sp _ l r => sp.start ≤ sp.stop ∧ exprOk l ∧ exprOk r

theorem exprOk_span {e : Expr} (h : exprOk e) :
    e.span.start ≤ e.span.stop := by
  cases e with
  | int sp v => exact h
  | group sp e => exact h.1
  | binary sp op l r => exact h.1

theorem cover_wf {a b : Span} (ha : a.start ≤ a.stop)
    (hb : b.start ≤ b.stop) :
    (Span.cover a b).start ≤ (Span.cover a b).stop := by
  show min a.start b.start ≤ max a.stop b.stop
  omega

/-- A token produced by the scanner (or the initial dummy `Eof`): its
span is well-formed and an `Int` kind carries an integer value. -/
def tokenOk (t : Token) : Prop :=
  t.span.start ≤ t.span.stop ∧ (t.kind = .int → ∃ v, t.value = .int v)

/-- The parser-state invariant. -/
def PInv (input : List Char) (ps : PState) : Prop :=
  ps.scanSt.pos ≤ input.length ∧ ps.scanSt.lineStarts ≠ [] ∧
  tokenOk ps.current

/-- Termination measure of the parser state: unconsumed characters
plus one if the lookahead is not `Eof`. -/
def pMeasure (input : List Char) (ps : PState) : Nat :=
  (input.length - ps.scanSt.pos) +
    (if ps.current.kind = .eof then 0 else 1)

theorem advance_spec (input : List Char) (ps : PState)
    (h : PInv input ps) :
    (advance input ps).1 = ps.current ∧
    PInv input (advance input ps).2 ∧
    pMeasure input (advance input ps).2 ≤ pMeasure input ps ∧
    (ps.current.kind ≠ .eof →
      pMeasure input (advance input ps).2 < pMeasure input ps) := by
  obtain ⟨hpos, hls, htok⟩ := h
  obtain ⟨p1, p2, p3, p4, p5, p6, p7, p8, p9, p10⟩ :=
    scan_scanStep input ps.scanSt hpos
  have hnew : (advance input ps).2.scanSt = (scan input ps.scanSt).2 := rfl
  have hcur : (advance input ps).2.current = (scan input ps.scanSt).1 := rfl
  refine ⟨rfl, ⟨?_, ?_, ?_⟩, ?_, ?_⟩
  · show (scan input ps.scanSt).2.pos ≤ input.length
    exact p4
  · show (scan input ps.scanSt).2.lineStarts ≠ []
    exact p10 hls
  · show tokenOk (scan input ps.scanSt).1
    exact ⟨p3, p9⟩
  · show (input.length - (scan input ps.scanSt).2.pos) +
        (if (scan input ps.scanSt).1.kind = .eof then 0 else 1) ≤
      (input.length - ps.scanSt.pos) +
        (if ps.current.kind = .eof then 0 else 1)
    by_cases ht : (scan input ps.scanSt).1.kind = .eof
    · rw [if_pos ht]
      have := (p7 ht).2
      split <;> omega
    · rw [if_neg ht]
      have hlt := p8 ht
      split <;> omega
  · intro hne
    show (input.length - (scan input ps.scanSt).2.pos) +
        (if (scan input ps.scanSt).1.kind = .eof then 0 else 1) <
      (input.length - ps.scanSt.pos) +
        (if ps.current.kind = .eof then 0 else 1)
    rw [if_neg hne]
    by_cases ht : (scan input ps.scanSt).1.kind = .eof
    · rw [if_pos ht]
      have := (p7 ht).2
      omega
    · rw [if_neg ht]
      have hlt := p8 ht
      omega

theorem expect_spec (input : List Char) (ps : PState) (kind : TokenKind)
    (h : PInv input ps) :
    ∃ out, expect input ps kind = some out ∧
      ∀ tok ps', out = .ok (tok, ps') →
        tok = ps.current ∧ PInv input ps' ∧
        pMeasure input ps' ≤ pMeasure input ps := by
  by_cases hk : ps.current.kind = kind
  · obtain ⟨ha1, ha2, ha3, -⟩ := advance_spec input ps h
    refine ⟨.ok (advance input ps), by simp [expect, hk], ?_⟩
    intro tok ps' heq
    injection heq with h2
    have e1 : tok = (advance input ps).1 := by rw [h2]
    have e2 : ps' = (advance input ps).2 := by rw [h2]
    subst e1
    subst e2
    exact ⟨ha1, ha2, ha3⟩
  · obtain ⟨e, he⟩ :=
      mkError_some ps.scanSt.lineStarts ps.current.span
        ("expected " ++ displayKind kind) h.2.1 h.2.2.1
    refine ⟨.error e, by simp [expect, hk, he], ?_⟩
    intro tok ps' heq
    cases heq

/-- What holds of a parser-function result on success. -/
def ResOk (input : List Char) (ps : PState) :
    Except Error (Expr × PState) → Prop
  | .error _ => True
  | .ok (e, ps') => exprOk e ∧ PInv input ps' ∧
      pMeasure input ps' ≤ pMeasure input ps

theorem resOk_of_le {input : List Char} {ps ps' : PState}
    {out : Except Error (Expr × PState)}
    (hle : pMeasure input ps' ≤ pMeasure input ps)
    (h : ResOk input ps' out) : ResOk input ps out := by
  cases out with
  | error e => trivial
  | ok pair =>
    obtain ⟨e, ps2⟩ := pair
    obtain ⟨h1, h2, h3⟩ := h
    exact ⟨h1, h2, Nat.le_trans h3 hle⟩

theorem parser_total : ∀ n : Nat,
    (∀ (input : List Char) (ps : PState), PInv input ps →
      5 * pMeasure input ps + 5 ≤ n →
      ∃ out, parseExpr n input ps = some out ∧ ResOk input ps out) ∧
    (∀ (input : List Char) (left : Expr) (ps : PState), PInv input ps →
      exprOk left → 5 * pMeasure input ps + 4 ≤ n →
      ∃ out, parseExprLoop n input left ps = some out ∧ ResOk input ps out) ∧
    (∀ (input : List Char) (ps : PState), PInv input ps →
      5 * pMeasure input ps + 3 ≤ n →
      ∃ out, parseTerm n input ps = some out ∧ ResOk input ps out) ∧
    (∀ (input : List Char) (left : Expr) (ps : PState), PInv input ps →
      exprOk left → 5 * pMeasure input ps + 2 ≤ n →
      ∃ out, parseTermLoop n input left ps = some out ∧ ResOk input ps out) ∧
    (∀ (input : List Char) (ps : PState), PInv input ps →
      5 * pMeasure input ps + 1 ≤ n →
      ∃ out, parseFactor n input ps = some out ∧ ResOk input ps out) := by
  intro n
  induction n with
  | zero =>
    refine ⟨fun _ _ _ h => absurd h (by omega),
      fun _ _ _ _ _ h => absurd h (by omega),
      fun _ _ _ h => absurd h (by omega),
      fun _ _ _ _ _ h => absurd h (by omega),
      fun _ _ _ h => absurd h (by omega)⟩
  | succ n ih =>
    obtain ⟨ihE, ihEL, ihT, ihTL, ihF⟩ := ih
    have stepEL : ∀ (input : List Char) (left : Expr) (ps : PState),
        PInv input ps → exprOk left → 5 * pMeasure input ps + 4 ≤ n + 1 →
        ∃ out, parseExprLoop (n + 1) input left ps = some out ∧
          ResOk input ps out := by
      intro input left ps hinv hok hfuel
      by_cases hop : ps.current.kind = .plus ∨ ps.current.kind = .minus
      · obtain ⟨ha1, ha2, ha3, ha4⟩ := advance_spec input ps hinv
        have hne : ps.current.kind ≠ .eof := by
          rcases hop with h | h <;> rw [h] <;> decide
        have hstrict := ha4 hne
        obtain ⟨op, hbop⟩ :
            ∃ op, binaryOpFromToken (advance input ps).1 = some op := by
          rw [ha1]
          rcases hop with h | h
          · exact ⟨.add, by simp [binaryOpFromToken, h]⟩
          · exact ⟨.sub, by simp [binaryOpFromToken, h]⟩
        obtain ⟨out1, hout1, hres1⟩ :=
          ihT input (advance input ps).2 ha2 (by omega)
        cases out1 with
        | error e =>
          refine ⟨.error e, ?_, trivial⟩
          simp only [parseExprLoop, if_pos hop, hbop, hout1]
        | ok pair =>
          obtain ⟨right, ps2⟩ := pair
          obtain ⟨hokR, hinv2, hle2⟩ := hres1
          obtain ⟨out2, hout2, hres2⟩ :=
            ihEL input
              (Expr.binary (Span.cover left.span right.span) op left right)
              ps2 hinv2
              ⟨cover_wf (exprOk_span hok) (exprOk_span hokR), hok, hokR⟩
              (by omega)
          refine ⟨out2, ?_, resOk_of_le (by omega) hres2⟩
          simp only [parseExprLoop, if_pos hop, hbop, hout1, hout2]
      · refine ⟨.ok (left, ps), ?_, ⟨hok, hinv, Nat.le_refl _⟩⟩
        simp only [parseExprLoop, if_neg hop]
    have stepTL : ∀ (input : List Char) (left : Expr) (ps : PState),
        PInv input ps → exprOk left → 5 * pMeasure input ps + 2 ≤ n + 1 →
        ∃ out, parseTermLoop (n + 1) input left ps = some out ∧
          ResOk input ps out := by
      intro input left ps hinv hok hfuel
      by_cases hop : ps.current.kind = .star ∨ ps.current.kind = .slash
      · obtain ⟨ha1, ha2, ha3, ha4⟩ := advance_spec input ps hinv
        have hne : ps.current.kind ≠ .eof := by
          rcases hop with h | h <;> rw [h] <;> decide
        have hstrict := ha4 hne
        obtain ⟨op, hbop⟩ :
            ∃ op, binaryOpFromToken (advance input ps).1 = some op := by
          rw [ha1]
          rcases hop with h | h
          · exact ⟨.mul, by simp [binaryOpFromToken, h]⟩
          · exact ⟨.div, by simp [binaryOpFromToken, h]⟩
        obtain ⟨out1, hout1, hres1⟩ :=
          ihF input (advance input ps).2 ha2 (by omega)
        cases out1 with
        | error e =>
          refine ⟨.error e, ?_, trivial⟩
          simp only [parseTermLoop, if_pos hop, hbop, hout1]
        | ok pair =>
          obtain ⟨right, ps2⟩ := pair
          obtain ⟨hokR, hinv2, hle2⟩ := hres1
          obtain ⟨out2, hout2, hres2⟩ :=
            ihTL input
              (Expr.binary (Span.cover left.span right.span) op left right)
              ps2 hinv2
              ⟨cover_wf (exprOk_span hok) (exprOk_span hokR), hok, hokR⟩
              (by omega)
          refine ⟨out2, ?_, resOk_of_le (by omega) hres2⟩
          simp only [parseTermLoop, if_pos hop, hbop, hout1, hout2]
      · refine ⟨.ok (left, ps), ?_, ⟨hok, hinv, Nat.le_refl _⟩⟩
        simp only [parseTermLoop, if_neg hop]
    have stepF : ∀ (input : List Char) (ps : PState), PInv input ps →
        5 * pMeasure input ps + 1 ≤ n + 1 →
        ∃ out, parseFactor (n + 1) input ps = some out ∧
          ResOk input ps out := by
      intro input ps hinv hfuel
      obtain ⟨hpos, hls, htok⟩ := hinv
      cases hk : ps.current.kind with
      | int =>
        obtain ⟨ha1, ha2, ha3, -⟩ := advance_spec input ps ⟨hpos, hls, htok⟩
        obtain ⟨v, hv⟩ := htok.2 hk
        have hival : (advance input ps).1.intValue = some v := by
          rw [ha1]
          simp [Token.intValue, hv]
        refine ⟨.ok (Expr.int (advance input ps).1.span v,
          (advance input ps).2), ?_, ?_, ha2, ha3⟩
        · simp only [parseFactor, hk, hival]
        · show (advance input ps).1.span.start ≤ (advance input ps).1.span.stop
          rw [ha1]
          exact htok.1
      | lParen =>
        obtain ⟨ha1, ha2, ha3, ha4⟩ := advance_spec input ps ⟨hpos, hls, htok⟩
        have hstrict := ha4 (by rw [hk]; decide)
        obtain ⟨out1, hout1, hres1⟩ :=
          ihE input (advance input ps).2 ha2 (by omega)
        cases out1 with
        | error e =>
          refine ⟨.error e, ?_, trivial⟩
          simp only [parseFactor, hk, hout1]
        | ok pair =>
          obtain ⟨inner, ps2⟩ := pair
          obtain ⟨hokI, hinv2, hle2⟩ := hres1
          obtain ⟨out2, hout2, hspec2⟩ := expect_spec input ps2 .rParen hinv2
          cases out2 with
          | error e =>
            refine ⟨.error e, ?_, trivial⟩
            simp only [parseFactor, hk, hout1, hout2]
          | ok pair2 =>
            obtain ⟨rp, ps3⟩ := pair2
            obtain ⟨hrp, hinv3, hle3⟩ := hspec2 rp ps3 rfl
            refine ⟨.ok (Expr.group
              (Span.cover (advance input ps).1.span rp.span) inner, ps3),
              ?_, ⟨?_, hokI⟩, hinv3, by omega⟩
            · simp only [parseFactor, hk, hout1, hout2]
            · refine cover_wf ?_ ?_
              · show (advance input ps).1.span.start ≤
                  (advance input ps).1.span.stop
                rw [ha1]
                exact htok.1
              · rw [hrp]
                exact hinv2.2.2.1
      | plus =>
        obtain ⟨e, he⟩ :=
          mkError_some ps.scanSt.lineStarts ps.current.span
            ("expected " ++ displayKind .int ++ " or " ++ displayKind .lParen)
            hls htok.1
        exact ⟨.error e, by simp only [parseFactor, hk, he], trivial⟩
      | minus =>
        obtain ⟨e, he⟩ :=
          mkError_some ps.scanSt.lineStarts ps.current.span
            ("expected " ++ displayKind .int ++ " or " ++ displayKind .lParen)
            hls htok.1
        exact ⟨.error e, by simp only [parseFactor, hk, he], trivial⟩
      | star =>
        obtain ⟨e, he⟩ :=
          mkError_some ps.scanSt.lineStarts ps.current.span
            ("expected " ++ displayKind .int ++ " or " ++ displayKind .lParen)
            hls htok.1
        exact ⟨.error e, by simp only [parseFactor, hk, he], trivial⟩
      | slash =>
        obtain ⟨e, he⟩ :=
          mkError_some ps.scanSt.lineStarts ps.current.span
            ("expected " ++ displayKind .int ++ " or " ++ displayKind .lParen)
            hls htok.1
        exact ⟨.error e, by simp only [parseFactor, hk, he], trivial⟩
      | rParen =>
        obtain ⟨e, he⟩ :=
          mkError_some ps.scanSt.lineStarts ps.current.span
            ("expected " ++ displayKind .int ++ " or " ++ displayKind .lParen)
            hls htok.1
        exact ⟨.error e, by simp only [parseFactor, hk, he], trivial⟩
      | error =>
        obtain ⟨e, he⟩ :=
          mkError_some ps.scanSt.lineStarts ps.current.span
            ("expected " ++ displayKind .int ++ " or " ++ displayKind .lParen)
            hls htok.1
        exact ⟨.error e, by simp only [parseFactor, hk, he], trivial⟩
      | eof =>
        obtain ⟨e, he⟩ :=
          mkError_some ps.scanSt.lineStarts ps.current.span
            ("expected " ++ displayKind .int ++ " or " ++ displayKind .lParen)
            hls htok.1
        exact ⟨.error e, by simp only [parseFactor, hk, he], trivial⟩
    have stepT : ∀ (input : List Char) (ps : PState), PInv input ps →
        5 * pMeasure input ps + 3 ≤ n + 1 →
        ∃ out, parseTerm (n + 1) input ps = some out ∧ ResOk input ps out := by
      intro input ps hinv hfuel
      obtain ⟨out1, hout1, hres1⟩ := ihF input ps hinv (by omega)
      cases out1 with
      | error e =>
        refine ⟨.error e, ?_, trivial⟩
        simp only [parseTerm, hout1]
      | ok pair =>
        obtain ⟨left, ps1⟩ := pair
        obtain ⟨hokL, hinv1, hle1⟩ := hres1
        obtain ⟨out2, hout2, hres2⟩ := ihTL input left ps1 hinv1 hokL (by omega)
        refine ⟨out2, ?_, resOk_of_le hle1 hres2⟩
        simp only [parseTerm, hout1, hout2]
    have stepE : ∀ (input : List Char) (ps : PState), PInv input ps →
        5 * pMeasure input ps + 5 ≤ n + 1 →
        ∃ out, parseExpr (n + 1) input ps = some out ∧ ResOk input ps out := by
      intro input ps hinv hfuel
      obtain ⟨out1, hout1, hres1⟩ := ihT input ps hinv (by omega)
      cases out1 with
      | error e =>
        refine ⟨.error e, ?_, trivial⟩
        simp only [parseExpr, hout1]
      | ok pair =>
        obtain ⟨left, ps1⟩ := pair
        obtain ⟨hokL, hinv1, hle1⟩ := hres1
        obtain ⟨out2, hout2, hres2⟩ := ihEL input left ps1 hinv1 hokL (by omega)
        refine ⟨out2, ?_, resOk_of_le hle1 hres2⟩
        simp only [parseExpr, hout1, hout2]
    exact ⟨stepE, stepEL, stepT, stepTL, stepF⟩

theorem parse_total : ∀ input : List Char,
    ∃ r, parse input = some r ∧
      ∀ e ls, r = .ok (e, ls) → exprOk e ∧ ls ≠ [] := by
  intro input
  have hinv0 : PInv input ⟨⟨0, [0]⟩, Token.eof ⟨0, 0⟩⟩ :=
    ⟨Nat.zero_le _, by simp, Nat.le_refl 0, fun h => TokenKind.noConfusion h⟩
  obtain ⟨-, ha2, ha3, -⟩ := advance_spec input _ hinv0
  have h0 : pMeasure input ⟨⟨0, [0]⟩, Token.eof ⟨0, 0⟩⟩ = input.length := by
    simp [pMeasure, Token.eof]
  obtain ⟨out, hout, hres⟩ :=
    (parser_total (5 * input.length + 10)).1 input _ ha2 (by omega)
  cases out with
  | error e =>
    refine ⟨.error e, ?_, fun _ _ h => by cases h⟩
    simp only [parse, hout]
  | ok pair =>
    obtain ⟨expr, ps2⟩ := pair
    obtain ⟨hokE, hinv2, -⟩ := hres
    obtain ⟨out2, hout2, hspec2⟩ := expect_spec input ps2 .eof hinv2
    cases out2 with
    | error e =>
      refine ⟨.error e, ?_, fun _ _ h => by cases h⟩
      simp only [parse, hout, hout2]
    | ok pair2 =>
      obtain ⟨tk, ps3⟩ := pair2
      obtain ⟨-, hinv3, -⟩ := hspec2 tk ps3 rfl
      refine ⟨.ok (expr, ps3.scanSt.lineStarts), ?_, ?_⟩
      · simp only [parse, hout, hout2]
      · intro e' ls' heq
        injection heq with h2
        cases h2
        exact ⟨hokE, hinv3.2.1⟩

theorem evalExpr_total : ∀ (e : Expr) (ls : List Nat), exprOk e → ls ≠ [] →
    ∃ r, evalExpr ls e = some r := by
  intro e
  induction e with
  | int sp v => exact fun ls _ _ => ⟨.ok v, rfl⟩
  | group sp e ihe =>
    intro ls hok hls
    obtain ⟨r, hr⟩ := ihe ls hok.2 hls
    exact ⟨r, hr⟩
  | binary sp op l r ihl ihr =>
    intro ls hok hls
    obtain ⟨h1, h2, h3⟩ := hok
    obtain ⟨rl, hrl⟩ := ihl ls h2 hls
    obtain ⟨rr, hrr⟩ := ihr ls h3 hls
    cases rl with
    | error e => exact ⟨.error e, by simp only [evalExpr, hrl]⟩
    | ok vl =>
      cases rr with
      | error e => exact ⟨.error e, by simp only [evalExpr, hrl, hrr]⟩
      | ok vr =>
        cases op with
        | add =>
          exact ⟨.ok (wrappingAdd vl vr), by simp only [evalExpr, hrl, hrr]⟩
        | sub =>
          exact ⟨.ok (wrappingSub vl vr), by simp only [evalExpr, hrl, hrr]⟩
        | mul =>
          exact ⟨.ok (wrappingMul vl vr), by simp only [evalExpr, hrl, hrr]⟩
        | div =>
          by_cases hz : vr = 0
          · subst hz
            obtain ⟨err, herr⟩ := mkError_some ls sp "division by zero" hls h1
            refine ⟨.error err, ?_⟩
            simp only [evalExpr, hrl, hrr, herr, if_true]
          · refine ⟨.ok (wrappingDiv vl vr), ?_⟩
            simp only [evalExpr, hrl, hrr]
            rw [if_neg hz]

/-! ## Decimal rendering facts -/

/-- The exact (non-wrapping) accumulation step corresponding to
`intStep`. -/
def pureStep (v : Int) (c : Char) : Int :=
  10 * v + ((c.toNat : Int) - 48)

theorem digitChar_toNat {d : Nat} (h : d < 10) :
    (digitChar d).toNat = 48 + d := by
  interval_cases d <;> decide

theorem isDigit_digitChar {d : Nat} (h : d < 10) :
    isDigit (digitChar d) = true := by
  interval_cases d <;> decide

theorem takeWhile_all {p : Char → Bool} :
    ∀ l : List Char, (∀ c ∈ l, p c = true) → l.takeWhile p = l := by
  intro l
  induction l with
  | nil => intro _; rfl
  | cons c l ih =>
    intro h
    rw [List.takeWhile_cons, if_pos (h c (List.mem_cons_self _ _)),
      ih (fun c' hc' => h c' (List.mem_cons_of_mem _ hc'))]

theorem natDigitsGo_spec :
    ∀ (fuel n : Nat), n ≤ fuel →
      (∀ c ∈ natDigitsGo fuel n, isDigit c = true) ∧
      natDigitsGo fuel n ≠ [] ∧
      ∀ v : Int, (natDigitsGo fuel n).foldl pureStep v =
        v * 10 ^ (natDigitsGo fuel n).length + n := by
  intro fuel
  induction fuel with
  | zero =>
    intro n hn
    have hz : n = 0 := by omega
    subst hz
    refine ⟨?_, by simp [natDigitsGo], ?_⟩
    · intro c hc
      rw [natDigitsGo, List.mem_singleton] at hc
      subst hc
      exact isDigit_digitChar (by omega)
    · intro v
      show pureStep v (digitChar 0) = v * 10 ^ 1 + 0
      have h48 : ((digitChar 0).toNat : Int) = 48 := by decide
      simp only [pureStep, h48]
      ring
  | succ f ih =>
    intro n hn
    by_cases h10 : n < 10
    · rw [natDigitsGo, if_pos h10]
      refine ⟨?_, by simp, ?_⟩
      · intro c hc
        rw [List.mem_singleton] at hc
        subst hc
        exact isDigit_digitChar h10
      · intro v
        show pureStep v (digitChar n) = v * 10 ^ 1 + n
        have h48 : ((digitChar n).toNat : Int) = 48 + n := by
          exact_mod_cast congrArg (Nat.cast : Nat → Int) (digitChar_toNat h10)
        simp only [pureStep, h48]
        ring
    · have hdiv : n / 10 ≤ f := by omega
      obtain ⟨ih1, ih2, ih3⟩ := ih (n / 10) hdiv
      rw [natDigitsGo, if_neg h10]
      refine ⟨?_, by simp [ih2], ?_⟩
      · intro c hc
        rcases List.mem_append.mp hc with hc | hc
        · exact ih1 c hc
        · rw [List.mem_singleton] at hc
          subst hc
          exact isDigit_digitChar (by omega)
      · intro v
        rw [List.foldl_append, List.length_append, List.length_singleton]
        have hfold := ih3 v
        rw [hfold]
        show pureStep (v * 10 ^ (natDigitsGo f (n / 10)).length + ↑(n / 10))
            (digitChar (n % 10)) =
          v * 10 ^ ((natDigitsGo f (n / 10)).length + 1) + n
        have h48 : ((digitChar (n % 10)).toNat : Int) = 48 + (n % 10 : Nat) := by
          exact_mod_cast
            congrArg (Nat.cast : Nat → Int) (digitChar_toNat (by omega))
        have hdm : (10 : Int) * ((n / 10 : Nat) : Int) + ((n % 10 : Nat) : Int) =
            (n : Int) := by
          exact_mod_cast Nat.div_add_mod n 10
        simp only [pureStep, h48, pow_succ]
        linear_combination hdm

theorem foldl_pureStep_lower :
    ∀ (ds : List Char) (v : Int), (∀ c ∈ ds, isDigit c = true) → 0 ≤ v →
      v ≤ ds.foldl pureStep v ∧ 0 ≤ ds.foldl pureStep v := by
  intro ds
  induction ds with
  | nil => exact fun v _ hv => ⟨Int.le_refl v, hv⟩
  | cons c ds ih =>
    intro v hall hv
    have hc := digit_bounds (hall c (List.mem_cons_self _ _))
    have hstep : v ≤ pureStep v c ∧ 0 ≤ pureStep v c := by
      simp only [pureStep]
      omega
    obtain ⟨h1, h2⟩ :=
      ih (pureStep v c) (fun c' hc' => hall c' (List.mem_cons_of_mem _ hc'))
        hstep.2
    exact ⟨Int.le_trans hstep.1 h1, h2⟩

theorem foldl_intStep_eq_pure :
    ∀ (ds : List Char) (v : Int), (∀ c ∈ ds, isDigit c = true) → 0 ≤ v →
      ds.foldl pureStep v < 2 ^ 31 → ds.foldl intStep v = ds.foldl pureStep v := by
  intro ds
  induction ds with
  | nil => exact fun _ _ _ _ => rfl
  | cons c ds ih =>
    intro v hall hv hlt
    have hcd := hall c (List.mem_cons_self _ _)
    have hcb := digit_bounds hcd
    have hrest : ∀ c' ∈ ds, isDigit c' = true :=
      fun c' hc' => hall c' (List.mem_cons_of_mem _ hc')
    have hstep_pos : 0 ≤ pureStep v c := by simp only [pureStep]; omega
    have hfold := foldl_pureStep_lower ds (pureStep v c) hrest hstep_pos
    have hlt' : ds.foldl pureStep (pureStep v c) < 2 ^ 31 := hlt
    have hstep_lt : pureStep v c < 2 ^ 31 := by
      have := hfold.1
      omega
    have hstep_eq : intStep v c = pureStep v c := by
      have hmul : wrappingMul v 10 = v * 10 := by
        apply wrap32_eq_self
        · simp only [pureStep] at hstep_lt ⊢
          omega
        · simp only [pureStep] at hstep_lt
          omega
      simp only [intStep, hmul, wrappingAdd, toDigit_eq hcd]
      rw [wrap32_eq_self]
      · simp only [pureStep]
        ring
      · simp only [pureStep] at hstep_pos
        omega
      · simp only [pureStep] at hstep_lt
        omega
    show ds.foldl intStep (intStep v c) = ds.foldl pureStep (pureStep v c)
    rw [hstep_eq]
    exact ih (pureStep v c) hrest hstep_pos hlt'

/-! ## Parsing a lone integer literal -/

theorem parseFactor_int (m : Nat) (input : List Char) (ps : PState)
    (sp : Span) (v : Int) (hcur : ps.current = Token.int sp v) :
    parseFactor (m + 1) input ps =
      some (.ok (Expr.int sp v, (advance input ps).2)) := by
  have hk : ps.current.kind = .int := by rw [hcur]; rfl
  have h1 : (advance input ps).1.intValue = some v := by
    show ps.current.intValue = some v
    rw [hcur]
    rfl
  have h2 : (advance input ps).1.span = sp := by
    show ps.current.span = sp
    rw [hcur]
    rfl
  simp only [parseFactor, hk, h1, h2]

theorem parseTermLoop_done (m : Nat) (input : List Char) (left : Expr)
    (ps : PState) (h1 : ps.current.kind ≠ .star)
    (h2 : ps.current.kind ≠ .slash) :
    parseTermLoop (m + 1) input left ps = some (.ok (left, ps)) := by
  simp only [parseTermLoop]
  rw [if_neg (fun hor => Or.elim hor h1 h2)]

theorem parseExprLoop_done (m : Nat) (input : List Char) (left : Expr)
    (ps : PState) (h1 : ps.current.kind ≠ .plus)
    (h2 : ps.current.kind ≠ .minus) :
    parseExprLoop (m + 1) input left ps = some (.ok (left, ps)) := by
  simp only [parseExprLoop]
  rw [if_neg (fun hor => Or.elim hor h1 h2)]

theorem parse_single_int (input : List Char) (v : Int)
    (h1 : scan input ⟨0, [0]⟩ =
      (Token.int ⟨0, input.length⟩ v, ⟨input.length, [0]⟩)) :
    parse input = some (.ok (Expr.int ⟨0, input.length⟩ v, [0])) := by
  have hend : scan input ⟨input.length, [0]⟩ =
      (Token.eof ⟨input.length, input.length⟩, ⟨input.length, [0]⟩) := by
    have := scan_peek_none
      (s := (⟨input.length, [0]⟩ : ScanState))
      (List.getElem?_eq_none (by show input.length ≤ input.length; omega))
    exact this
  have hadv1 : advance input ⟨⟨0, [0]⟩, Token.eof ⟨0, 0⟩⟩ =
      (Token.eof ⟨0, 0⟩, ⟨⟨input.length, [0]⟩, Token.int ⟨0, input.length⟩ v⟩) := by
    simp only [advance, h1]
  have hadv2 : advance input ⟨⟨input.length, [0]⟩, Token.int ⟨0, input.length⟩ v⟩ =
      (Token.int ⟨0, input.length⟩ v,
        ⟨⟨input.length, [0]⟩, Token.eof ⟨input.length, input.length⟩⟩) := by
    simp only [advance, hend]
  obtain ⟨m, hm⟩ : ∃ m, 5 * input.length + 10 = m + 1 + 1 + 1 :=
    ⟨5 * input.length + 7, by omega⟩
  have hF : parseFactor (m + 1) input
      ⟨⟨input.length, [0]⟩, Token.int ⟨0, input.length⟩ v⟩ =
      some (.ok (Expr.int ⟨0, input.length⟩ v,
        ⟨⟨input.length, [0]⟩, Token.eof ⟨input.length, input.length⟩⟩)) := by
    rw [parseFactor_int m input _ ⟨0, input.length⟩ v rfl, hadv2]
  have hTL : parseTermLoop (m + 1) input (Expr.int ⟨0, input.length⟩ v)
      ⟨⟨input.length, [0]⟩, Token.eof ⟨input.length, input.length⟩⟩ =
      some (.ok (Expr.int ⟨0, input.length⟩ v,
        ⟨⟨input.length, [0]⟩, Token.eof ⟨input.length, input.length⟩⟩)) :=
    parseTermLoop_done m input _ _ (fun h => TokenKind.noConfusion h)
      (fun h => TokenKind.noConfusion h)
  have hT : parseTerm (m + 1 + 1) input
      ⟨⟨input.length, [0]⟩, Token.int ⟨0, input.length⟩ v⟩ =
      some (.ok (Expr.int ⟨0, input.length⟩ v,
        ⟨⟨input.length, [0]⟩, Token.eof ⟨input.length, input.length⟩⟩)) := by
    simp only [parseTerm, hF, hTL]
  have hEL : parseExprLoop (m + 1 + 1) input (Expr.int ⟨0, input.length⟩ v)
      ⟨⟨input.length, [0]⟩, Token.eof ⟨input.length, input.length⟩⟩ =
      some (.ok (Expr.int ⟨0, input.length⟩ v,
        ⟨⟨input.length, [0]⟩, Token.eof ⟨input.length, input.length⟩⟩)) :=
    parseExprLoop_done (m + 1) input _ _ (fun h => TokenKind.noConfusion h)
      (fun h => TokenKind.noConfusion h)
  have hE : parseExpr (m + 1 + 1 + 1) input
      ⟨⟨input.length, [0]⟩, Token.int ⟨0, input.length⟩ v⟩ =
      some (.ok (Expr.int ⟨0, input.length⟩ v,
        ⟨⟨input.length, [0]⟩, Token.eof ⟨input.length, input.length⟩⟩)) := by
    simp only [parseExpr, hT, hEL]
  have hexp : expect input
      ⟨⟨input.length, [0]⟩, Token.eof ⟨input.length, input.length⟩⟩ .eof =
      some (.ok (Token.eof ⟨input.length, input.length⟩,
        ⟨⟨input.length, [0]⟩, Token.eof ⟨input.length, input.length⟩⟩)) := by
    simp only [expect, advance, hend]
    rfl
  simp only [parse, hadv1, hm, hE, hexp]

/-! ## Claim theorems -/

/-- C1 (counterexample): the claim fails for negative integers — the
grammar has no unary minus, so `evaluate(str(-1))` is a parse error
(`expected integer literal or ( `, at the minus token), not
`Ok(-1)`. -/
theorem claim1_counterexample :
    eval (intStr (-1)) =
      some (.error ⟨⟨⟨0, 1, 1⟩, ⟨1, 1, 2⟩⟩, "expected integer literal or `(`"⟩) ∧
    eval (intStr (-1)) ≠ some (.ok (-1)) := by decide

/-- C1 (amended): for every integer `n` in `[0, 2147483647]`,
evaluating the decimal rendering of `n` returns `Ok(n)` (negative
integers do not parse, as the grammar has no unary minus). -/
theorem claim1_amended_decimal_roundtrip :
    ∀ n : Int, 0 ≤ n → n ≤ 2147483647 → eval (intStr n) = some (.ok n) := by
  intro n h0 h31
  have hcast : (n.toNat : Int) = n := Int.toNat_of_nonneg h0
  have hstr : intStr n = natDigits n.toNat := by
    rw [intStr, if_neg (not_lt.mpr h0)]
  rw [hstr]
  obtain ⟨hdig0, hne0, hfold0⟩ := natDigitsGo_spec n.toNat n.toNat (Nat.le_refl _)
  have hdig : ∀ c ∈ natDigits n.toNat, isDigit c = true := hdig0
  have hne : natDigits n.toNat ≠ [] := hne0
  have hfold : ∀ v : Int, (natDigits n.toNat).foldl pureStep v =
      v * 10 ^ (natDigits n.toNat).length + n.toNat := hfold0
  have hlen : 0 < (natDigits n.toNat).length := List.length_pos.mpr hne
  have hget : (natDigits n.toNat)[(0 : Nat)]? =
      some ((natDigits n.toNat).get ⟨0, hlen⟩) := List.getElem?_eq_getElem hlen
  have hhead : isDigit ((natDigits n.toNat).get ⟨0, hlen⟩) = true :=
    hdig _ (List.get_mem _ 0 hlen)
  have hscan := @scan_digit (natDigits n.toNat) ⟨0, [0]⟩ _ hget hhead
  have htw : ((natDigits n.toNat).drop 0).takeWhile isDigit =
      natDigits n.toNat := by
    rw [List.drop_zero]
    exact takeWhile_all _ hdig
  have hscan2 : scan (natDigits n.toNat) ⟨0, [0]⟩ =
      (Token.int ⟨0, (natDigits n.toNat).length⟩
        ((natDigits n.toNat).foldl intStep 0),
       ⟨(natDigits n.toNat).length, [0]⟩) := by
    rw [hscan]
    dsimp only
    rw [htw]
    simp
  have hpure : (natDigits n.toNat).foldl pureStep 0 = (n.toNat : Int) := by
    have := hfold 0
    simpa using this
  have hltp : (natDigits n.toNat).foldl pureStep 0 < 2 ^ 31 := by
    rw [hpure]
    omega
  have hwrapfree : (natDigits n.toNat).foldl intStep 0 = n := by
    rw [foldl_intStep_eq_pure _ 0 hdig (Int.le_refl 0) hltp, hpure, hcast]
  rw [hwrapfree] at hscan2
  have hparse := parse_single_int _ n hscan2
  simp only [eval, hparse]
  rfl

/-- C1 amended witness: the largest representable value round-trips. -/
theorem claim1_amended_decimal_roundtrip_witness :
    eval (intStr 2147483647) = some (.ok 2147483647) :=
  claim1_amended_decimal_roundtrip 2147483647 (by decide) (by decide)

/-- C2 (counterexample): `evaluate("-2147483648 - 1")` is a parse
error — the scanner has no signed literals and the grammar no unary
minus — so it is not `Ok(2147483647)`. -/
theorem claim2_counterexample :
    eval "-2147483648 - 1".data =
      some (.error ⟨⟨⟨0, 1, 1⟩, ⟨1, 1, 2⟩⟩, "expected integer literal or `(`"⟩) ∧
    eval "-2147483648 - 1".data ≠ some (.ok 2147483647) := by decide

/-- C2 (amended): `evaluate("2147483647 + 1")` wraps to
`Ok(-2147483648)`; `evaluate("-2147483648 - 1")` does not parse (no
unary minus) and instead fails with `expected integer literal or ( `
at `1:1-1:2`. -/
theorem claim2_amended_wraparound :
    eval "2147483647 + 1".data = some (.ok (-2147483648)) ∧
    eval "-2147483648 - 1".data =
      some (.error ⟨⟨⟨0, 1, 1⟩, ⟨1, 1, 2⟩⟩, "expected integer literal or `(`"⟩) := by
  decide

/-- C3 (counterexample): a division node whose right operand
evaluates to 0 but whose left operand itself fails does **not**
report the error at the node's own span: for `(1 / 0) / 0` the root
division's right operand is the literal `0`, yet the reported span is
`1:2-1:7` (the inner `1 / 0`), not the root's own span `1:1-1:12`. -/
theorem claim3_counterexample :
    parse "(1 / 0) / 0".data =
      some (.ok (Expr.binary ⟨0, 11⟩ .div
        (Expr.group ⟨0, 7⟩
          (Expr.binary ⟨1, 6⟩ .div (Expr.int ⟨1, 2⟩ 1) (Expr.int ⟨5, 6⟩ 0)))
        (Expr.int ⟨10, 11⟩ 0), [0])) ∧
    evalExpr [0] (Expr.int ⟨10, 11⟩ 0) = some (.ok 0) ∧
    eval "(1 / 0) / 0".data =
      some (.error ⟨⟨⟨1, 1, 2⟩, ⟨6, 1, 7⟩⟩, "division by zero"⟩) ∧
    mapSpan [0] ⟨0, 11⟩ = some ⟨⟨0, 1, 1⟩, ⟨11, 1, 12⟩⟩ ∧
    (⟨⟨1, 1, 2⟩, ⟨6, 1, 7⟩⟩ : SourceSpan) ≠ ⟨⟨0, 1, 1⟩, ⟨11, 1, 12⟩⟩ := by decide

/-- C3 (amended): for every division node whose left operand
evaluates successfully and whose right operand evaluates to 0,
evaluation fails with message `division by zero` whose span is the
binary expression's own span (resolved through the source map); in
particular `evaluate("1 / 0")` returns an error with span `1:1-1:6`
and that message. -/
theorem claim3_amended_div_by_zero :
    (∀ (ls : List Nat) (sp : Span) (l r : Expr) (vl : Int) (ss : SourceSpan),
      evalExpr ls l = some (.ok vl) →
      evalExpr ls r = some (.ok 0) →
      mapSpan ls sp = some ss →
      evalExpr ls (.binary sp .div l r) =
        some (.error ⟨ss, "division by zero"⟩)) ∧
    eval "1 / 0".data =
      some (.error ⟨⟨⟨0, 1, 1⟩, ⟨5, 1, 6⟩⟩, "division by zero"⟩) := by
  refine ⟨fun ls sp l r vl ss hl hr hss => ?_, by decide⟩
  simp only [evalExpr, hl, hr, if_pos rfl, mkError, hss, Option.bind_eq_bind,
    Option.some_bind, if_true]

/-- C3 witness: the general statement applied to the AST of
`1 / 0`. -/
theorem claim3_amended_div_by_zero_witness :
    evalExpr [0] (.binary ⟨0, 5⟩ .div (.int ⟨0, 1⟩ 1) (.int ⟨4, 5⟩ 0)) =
      some (.error ⟨⟨⟨0, 1, 1⟩, ⟨5, 1, 6⟩⟩, "division by zero"⟩) :=
  claim3_amended_div_by_zero.1 [0] ⟨0, 5⟩ (.int ⟨0, 1⟩ 1) (.int ⟨4, 5⟩ 0) 1
    ⟨⟨0, 1, 1⟩, ⟨5, 1, 6⟩⟩ rfl rfl (by decide)

/-- C6: whenever the parser has consumed a `(` and parsed the inner
expression but the current token is not `)` (including `Eof`),
parsing fails with message `expected )` located at the current
token's span; in particular `evaluate("(1 + 2")` fails with the empty
span `1:7-1:7`. -/
theorem claim6_expected_rparen :
    (∀ (fuel : Nat) (input : List Char) (ps ps' : PState) (inner : Expr)
        (ss : SourceSpan),
      ps.current.kind = .lParen →
      parseExpr fuel input (advance input ps).2 = some (.ok (inner, ps')) →
      ps'.current.kind ≠ .rParen →
      mapSpan ps'.scanSt.lineStarts ps'.current.span = some ss →
      parseFactor (fuel + 1) input ps =
        some (.error ⟨ss, "expected `)`"⟩)) ∧
    eval "(1 + 2".data =
      some (.error ⟨⟨⟨6, 1, 7⟩, ⟨6, 1, 7⟩⟩, "expected `)`"⟩) := by
  refine ⟨fun fuel input ps ps' inner ss hlp hpe hnr hss => ?_, by decide⟩
  simp only [parseFactor, hlp, hpe, expect, if_neg hnr, mkError, hss,
    Option.bind_eq_bind, Option.some_bind]
  rfl

/-- C6 witness: the general statement applied to the input `(1`,
where the current token after the inner expression is `Eof`. -/
theorem claim6_expected_rparen_witness :
    parseFactor 21 "(1".data ⟨⟨1, [0]⟩, Token.lParen ⟨0, 1⟩⟩ =
      some (.error ⟨⟨⟨2, 1, 3⟩, ⟨2, 1, 3⟩⟩, "expected `)`"⟩) :=
  claim6_expected_rparen.1 20 "(1".data ⟨⟨1, [0]⟩, Token.lParen ⟨0, 1⟩⟩
    ⟨⟨2, [0]⟩, Token.eof ⟨2, 2⟩⟩ (Expr.int ⟨1, 2⟩ 1) ⟨⟨2, 1, 3⟩, ⟨2, 1, 3⟩⟩
    rfl (by decide) (by decide) (by decide)

/-- C4: evaluating a `Binary` node on in-range operand values uses
32-bit two's-complement wraparound semantics: `Add`/`Sub`/`Mul` are
modular arithmetic (never an error), and for nonzero right operand
`Div` is truncating division whose single overflow case
`INT32_MIN / -1` wraps to `INT32_MIN`. -/
theorem claim4_binary_wraparound :
    ∀ (ls : List Nat) (sp spl spr : Span) (vl vr : Int),
      -2 ^ 31 ≤ vl → vl < 2 ^ 31 → -2 ^ 31 ≤ vr → vr < 2 ^ 31 →
      (evalExpr ls (.binary sp .add (.int spl vl) (.int spr vr)) =
        some (.ok ((vl + vr + 2 ^ 31) % 2 ^ 32 - 2 ^ 31))) ∧
      (evalExpr ls (.binary sp .sub (.int spl vl) (.int spr vr)) =
        some (.ok ((vl - vr + 2 ^ 31) % 2 ^ 32 - 2 ^ 31))) ∧
      (evalExpr ls (.binary sp .mul (.int spl vl) (.int spr vr)) =
        some (.ok ((vl * vr + 2 ^ 31) % 2 ^ 32 - 2 ^ 31))) ∧
      (vr ≠ 0 →
        evalExpr ls (.binary sp .div (.int spl vl) (.int spr vr)) =
          some (.ok (if vl = -2 ^ 31 ∧ vr = -1 then -2 ^ 31
            else Int.tdiv vl vr))) := by
  intro ls sp spl spr vl vr hl1 hl2 hr1 hr2
  refine ⟨rfl, rfl, rfl, fun hvr => ?_⟩
  simp only [evalExpr, if_neg hvr, wrappingDiv]
  by_cases hmin : vl = -2 ^ 31 ∧ vr = -1
  · obtain ⟨h1, h2⟩ := hmin
    subst h1; subst h2
    decide
  · rw [if_neg hmin]
    obtain ⟨hq1, hq2⟩ := tdiv_range hl1 hl2 hvr hmin
    rw [wrap32_eq_self hq1 hq2]

/-- C4 witness: the `INT32_MIN / -1` overflow case wraps to
`INT32_MIN`. -/
theorem claim4_binary_wraparound_witness :
    evalExpr [0] (.binary ⟨0, 16⟩ .div
        (.int ⟨0, 11⟩ (-2147483648)) (.int ⟨14, 16⟩ (-1))) =
      some (.ok (if (-2147483648 : Int) = -2 ^ 31 ∧ (-1 : Int) = -1
        then -2 ^ 31 else Int.tdiv (-2147483648) (-1))) :=
  (claim4_binary_wraparound [0] ⟨0, 16⟩ ⟨0, 11⟩ ⟨14, 16⟩ (-2147483648) (-1)
    (by decide) (by decide) (by decide) (by decide)).2.2.2 (by decide)

/-- C5 (code bug): `map_pos` does not return the greatest index whose
line start is `≤ offset`.  For `line_starts = [0, 2, 4, 6]` and
offset 3 the greatest such index is 1 (line 2, column 2), but the
search window update `size - half - 1` drops one untested candidate
when the window size is even and the probe goes left, so the code
returns line 1, column 4.  End-to-end, `evaluate("(\n1/0\n\n)")`
reports its error at `1:3-1:6` instead of `2:1-2:4`. -/
theorem claim5_bug_eval :
    mapPos [0, 2, 4, 6] 3 = some ⟨3, 1, 4⟩ ∧
    ([0, 2, 4, 6] : List Nat)[1]? = some 2 ∧ 2 ≤ 3 ∧
    (⟨3, 1, 4⟩ : SourcePos).line ≠ 1 + 1 ∧
    eval "(\n1/0\n\n)".data =
      some (.error ⟨⟨⟨2, 1, 3⟩, ⟨5, 1, 6⟩⟩, "division by zero"⟩) := by decide

/-- C8: the spans of the tokens scanned for any input (through the
first `Eof`), together with the skipped whitespace characters,
exactly partition `[0, input length)`: spans are increasing and
pairwise disjoint, stay inside the input, every index is either
covered by a token span or holds a skipped whitespace character but
never both, and the stream ends with an `Eof` token carrying the
empty span at the input length. -/
theorem claim8_scanner_partition :
    ∀ input : List Char,
      (∀ t ∈ scanTokens input,
        t.span.start ≤ t.span.stop ∧ t.span.stop ≤ input.length) ∧
      List.Pairwise (fun a b => a.span.stop ≤ b.span.start)
        (scanTokens input) ∧
      (∀ i, i < input.length →
        (∃ t ∈ scanTokens input, t.span.covers i) ∨
        ∃ c, input[i]? = some c ∧ isWhitespace c = true) ∧
      (∀ t ∈ scanTokens input, ∀ i, t.span.covers i →
        ∃ c, input[i]? = some c ∧ isWhitespace c = false) ∧
      (∃ t, (scanTokens input).getLast? = some t ∧ t.kind = .eof ∧
        t.span = ⟨input.length, input.length⟩) := by
  intro input
  obtain ⟨a, b, c, d, e⟩ :=
    scanList_facts input (input.length + 1) ⟨0, [0]⟩
      (show (0 : Nat) ≤ input.length by omega)
      (show input.length < 0 + (input.length + 1) by omega)
  exact ⟨fun t ht => ⟨(a t ht).2.1, (a t ht).2.2⟩, b,
    fun i hi => c i (show (0 : Nat) ≤ i by omega) hi, d, e⟩

/-- C8 witness: for the input ` 1+2`, index 1 is covered by a token
span or is skipped whitespace. -/
theorem claim8_scanner_partition_witness :
    (∃ t ∈ scanTokens " 1+2".data, Span.covers t.span 1) ∨
      ∃ c, (" 1+2".data)[1]? = some c ∧ isWhitespace c = true :=
  (claim8_scanner_partition " 1+2".data).2.2.1 1 (by decide)

/-- C9 (counterexample): token spans are *character*-offset ranges,
not byte-offset ranges.  For the input `¼1` (first char 2 bytes in
UTF-8) the `Int` token for `1` gets span `[1, 2)`, while the byte
offsets of its text are `[2, 3)`. -/
theorem claim9_counterexample :
    scanTokens ['¼', '1'] =
      [Token.mkErrorTok ⟨0, 1⟩, Token.int ⟨1, 2⟩ 1, Token.eof ⟨2, 2⟩] ∧
    byteOffset ['¼', '1'] 1 = 2 ∧ byteOffset ['¼', '1'] 2 = 3 ∧
    (Token.int ⟨1, 2⟩ 1).span ≠ ⟨2, 3⟩ := by decide

/-- C7: when the scanner sees an ASCII digit, it consumes exactly the
maximal run of ASCII digits and produces an `Int` token whose value
is the fold of `value = value * 10 + digit` over the run with 32-bit
wraparound at each step (`intStep`), starting from 0. -/
theorem claim7_scan_digits :
    ∀ (input : List Char) (s : ScanState) (c : Char),
      input[s.pos]? = some c → isDigit c = true →
      scan input s =
        (Token.int
          ⟨s.pos, s.pos + ((input.drop s.pos).takeWhile isDigit).length⟩
          (((input.drop s.pos).takeWhile isDigit).foldl intStep 0),
         ⟨s.pos + ((input.drop s.pos).takeWhile isDigit).length,
          s.lineStarts⟩) :=
  fun _ _ _ hc hd => scan_digit hc hd

/-- C7 witness: scanning `12+` from position 0 consumes exactly the
run `12`. -/
theorem claim7_scan_digits_witness :
    scan "12+".data ⟨0, [0]⟩ =
      (Token.int
        ⟨0, 0 + (("12+".data.drop 0).takeWhile isDigit).length⟩
        ((("12+".data.drop 0).takeWhile isDigit).foldl intStep 0),
       ⟨0 + (("12+".data.drop 0).takeWhile isDigit).length, [0]⟩) :=
  claim7_scan_digits "12+".data ⟨0, [0]⟩ '1' (by decide) (by decide)

/-- C10: `eval` is total — for every input it returns `some` result
(`Ok` or `Err`): the panic paths modelled by `none`
(`Token::int_value`, `BinaryOp::from_token`, the `SourceSpan::new`
assertion, `map_pos` indexing) are unreachable, and the parser's
recursion never exhausts the chosen fuel. -/
theorem claim10_eval_total : ∀ input : List Char, ∃ r, eval input = some r := by
  intro input
  obtain ⟨r, hr, hok⟩ := parse_total input
  cases r with
  | error e => exact ⟨.error e, by simp only [eval, hr]⟩
  | ok pair =>
    obtain ⟨ast, ls⟩ := pair
    obtain ⟨hokE, hls⟩ := hok ast ls rfl
    obtain ⟨v, hv⟩ := evalExpr_total ast ls hokE hls
    exact ⟨v, by simp only [eval, hr, hv]⟩

/-- C9 (amended): token spans are character-offset ranges; when every
character of the input is ASCII (one UTF-8 byte), the span offsets of
every scanned token coincide with byte offsets. -/
theorem claim9_amended_char_offsets :
    ∀ (input : List Char), (∀ c ∈ input, c.utf8Size = 1) →
      ∀ t ∈ scanTokens input,
        byteOffset input t.span.start = t.span.start ∧
        byteOffset input t.span.stop = t.span.stop := by
  intro input hascii t ht
  obtain ⟨a, -, -, -, -⟩ :=
    scanList_facts input (input.length + 1) ⟨0, [0]⟩
      (show (0 : Nat) ≤ input.length by omega)
      (show input.length < 0 + (input.length + 1) by omega)
  obtain ⟨-, h1, h2⟩ := a t ht
  exact ⟨byteOffset_of_ascii _ hascii _ (by omega),
    byteOffset_of_ascii _ hascii _ h2⟩

/-- C9 amended witness: for the pure-ASCII input `1+2` the `Int`
token's span offsets equal byte offsets. -/
theorem claim9_amended_char_offsets_witness :
    byteOffset "1+2".data (Token.int ⟨0, 1⟩ 1).span.start =
      (Token.int ⟨0, 1⟩ 1).span.start ∧
    byteOffset "1+2".data (Token.int ⟨0, 1⟩ 1).span.stop =
      (Token.int ⟨0, 1⟩ 1).span.stop :=
  claim9_amended_char_offsets "1+2".data (by decide) (Token.int ⟨0, 1⟩ 1)
    (by decide)

end Sari
